import Mathlib

/-!
Verification of the command-execution proxy and output-sanitization pipeline of
the `sui-cli-terminal` repository (Rust/Tauri).  The Rust sources are embedded
shallowly: strings become `List Char`, the three regex replacement passes of
`utils/sanitizer.rs::sanitize_output` become executable scanners that implement
the leftmost-first, greedy semantics of the `regex` crate for the three
concrete patterns, byte-indexed slicing in `utils/sanitizer.rs::mask_address`
is modelled at the byte level, `utils/parser.rs::parse_keys` is modelled with
the JSON parser treated as an external oracle parameter, and the Tauri command
handlers of `commands/cli.rs` and `commands/walrus.rs` become state-passing
functions parameterized by the outcome of the external process spawn.

Character classes follow the ASCII reading of the regex classes used by the
source patterns (`[a-zA-Z0-9]`, `[a-fA-F0-9]`, `[a-z]`, `\s`, and the word
class behind `\b`).
-/

/-- ASCII lowercase letter, the `[a-z]` class of the mnemonic pattern. -/
def isLowerAZ (c : Char) : Bool := 'a' ≤ c && c ≤ 'z'

/-- ASCII uppercase letter. -/
def isUpperAZ (c : Char) : Bool := 'A' ≤ c && c ≤ 'Z'

/-- ASCII digit. -/
def isDigit09 (c : Char) : Bool := '0' ≤ c && c ≤ '9'

/-- The `[a-zA-Z0-9]` class of the private-key pattern. -/
def isAlnumAscii (c : Char) : Bool := isLowerAZ c || isUpperAZ c || isDigit09 c

/-- The `[a-fA-F0-9]` class of the address pattern. -/
def isHexCh (c : Char) : Bool :=
  isDigit09 c || ('a' ≤ c && c ≤ 'f') || ('A' ≤ c && c ≤ 'F')

/-- Whitespace, the `\s` class between mnemonic words. -/
def isWsCh (c : Char) : Bool := c = ' ' || c = '\t' || c = '\n' || c = '\r'

/-- Word character for the `\b` boundary assertions of the mnemonic pattern. -/
def isWordCh (c : Char) : Bool := isAlnumAscii c || c = '_'

/-- Does `pat` occur as a prefix of `l`?  Plain executable prefix test. -/
def startsW : List Char → List Char → Bool
  | [], _ => true
  | _ :: _, [] => false
  | p :: ps, c :: cs => p = c && startsW ps cs

/-- Does `pat` occur as a contiguous substring of `l`? -/
def hasOcc (pat : List Char) : List Char → Bool
  | [] => startsW pat []
  | c :: cs => startsW pat (c :: cs) || hasOcc pat cs

/-- The literal prefix of the private-key pattern `suiprivkey[a-zA-Z0-9]+`. -/
def pkTok : List Char := ['s', 'u', 'i', 'p', 'r', 'i', 'v', 'k', 'e', 'y']

/-- The fixed mask replacing a matched private-key token. -/
def maskTok : List Char := ['*', '*', '*', '*']

/-- The fixed tag replacing a matched mnemonic-shaped word run. -/
def mnTag : List Char := ['[', 'M', 'N', 'E', 'M', 'O', 'N', 'I', 'C', ']']

theorem twLen (p : Char → Bool) (l : List Char) :
    (l.takeWhile p).length ≤ l.length := by
  induction l with
  | nil => simp [List.takeWhile]
  | cons c t ih =>
    by_cases h : p c
    · simp [List.takeWhile, h]; omega
    · simp [List.takeWhile, h]

/-- Length of the match of `suiprivkey[a-zA-Z0-9]+` anchored at the head of
`l` (prefix plus the maximal nonempty alphanumeric run), or `none`. -/
def m1At (l : List Char) : Option Nat :=
  if startsW pkTok l then
    if ((l.drop 10).takeWhile isAlnumAscii).isEmpty then none
    else some (10 + ((l.drop 10).takeWhile isAlnumAscii).length)
  else none

/-- Pass 1 of `sanitize_output`: `replace_all` of `suiprivkey[a-zA-Z0-9]+`
with `"****"`, scanning leftmost-first.  Fuel-structural; the fuel is
instantiated with the input length, which never runs out because every step
consumes at least one character. -/
def wipe1F : Nat → List Char → List Char
  | 0, l => l
  | _ + 1, [] => []
  | f + 1, c :: t =>
    match m1At (c :: t) with
    | some n => maskTok ++ wipe1F f ((c :: t).drop n)
    | none => c :: wipe1F f t

/-- The 64 hex characters of a match of `0x[a-fA-F0-9]{64}` anchored at the
head of `l`, or `none`. -/
def m2At (l : List Char) : Option (List Char) :=
  match l with
  | c0 :: c1 :: r =>
    if c0 = '0' && c1 = 'x' && (r.take 64).length = 64 && (r.take 64).all isHexCh
    then some (r.take 64)
    else none
  | _ => none

/-- The replacement the source builds from a matched address `addr`
(`format!("0x{}...{}", &addr[2..6], &addr[addr.len()-4..])`), expressed on
the 64 matched hex characters. -/
def maskRep (h : List Char) : List Char :=
  '0' :: 'x' :: (h.take 4 ++ '.' :: '.' :: '.' :: h.drop 60)

/-- Pass 2 of `sanitize_output`: `replace_all` of `0x[a-fA-F0-9]{64}` with the
partial mask. -/
def wipe2F : Nat → List Char → List Char
  | 0, l => l
  | _ + 1, [] => []
  | f + 1, c :: t =>
    match m2At (c :: t) with
    | some h => maskRep h ++ wipe2F f ((c :: t).drop 66)
    | none => c :: wipe2F f t

/-- The maximal `[a-z]+` run at the head of `l`. -/
def wOf (l : List Char) : List Char := l.takeWhile isLowerAZ

/-- The maximal `\s+` run following the head word of `l`. -/
def sOf (l : List Char) : List Char :=
  (l.drop (wOf l).length).takeWhile isWsCh

/-- What remains of `l` after its head word and the following whitespace. -/
def restOf (l : List Char) : List Char :=
  (l.drop (wOf l).length).drop (sOf l).length

/-- Maximal chain of whitespace-joined lowercase words anchored at the head:
each element is a maximal `[a-z]+` run paired with the maximal `\s+` run that
follows it; the chain continues past a pair only when its whitespace part is
nonempty and a further lowercase word follows. -/
def chainUnitsF : Nat → List Char → List (List Char × List Char)
  | 0, _ => []
  | f + 1, l =>
    if (wOf l).isEmpty then []
    else if (sOf l).isEmpty then [(wOf l, [])]
    else if isLowerAZ ((restOf l).headD ' ') then
      (wOf l, sOf l) :: chainUnitsF f (restOf l)
    else [(wOf l, sOf l)]

/-- The chain at its natural fuel (every recursion step of `chainUnitsF`
consumes at least one character, so this fuel never runs out). -/
def chainUnits (l : List Char) : List (List Char × List Char) :=
  chainUnitsF l.length l

/-- Number of characters consumed by a mnemonic match of `j` words through the
given unit chain: the first `j - 1` units contribute word plus whitespace, the
`j`-th contributes its word only. -/
def cLen : Nat → List (List Char × List Char) → Nat
  | 0, _ => 0
  | _ + 1, [] => 0
  | 1, (w, _) :: _ => w.length
  | j + 2, (w, s) :: us => w.length + s.length + cLen (j + 1) us

/-- Total number of characters covered by a unit chain. -/
def unitsLen (us : List (List Char × List Char)) : Nat :=
  us.foldr (fun u a => u.1.length + u.2.length + a) 0

/-- Trailing `\b` condition when the match would end at the last chain word:
satisfied when that word is followed by whitespace inside its own unit, and
otherwise exactly when the remainder after the chain is empty or starts with a
non-word character. -/
def tailBd (l : List Char) (us : List (List Char × List Char)) : Bool :=
  match us.getLast? with
  | none => false
  | some (_, s) =>
    if s.isEmpty then
      match l.drop (unitsLen us) with
      | [] => true
      | c :: _ => !isWordCh c
    else true

/-- Length of the match of `\b([a-z]+\s+){11,23}[a-z]+\b` anchored at the head
of `l`, where `pw` says whether the preceding character is a word character
(so the leading `\b` fails).  Greedy repetition with backtracking reduces, for
this pattern, to: take the maximal word chain `m`; with `m ≥ 25` match 24
words; with `13 ≤ m ≤ 24` match `m` words when the trailing boundary holds and
`m - 1` words otherwise; with `m = 12` match only when the trailing boundary
holds. -/
def m3At (pw : Bool) (l : List Char) : Option Nat :=
  if pw then none
  else if (chainUnits l).length < 12 then none
  else if 25 ≤ (chainUnits l).length then some (cLen 24 (chainUnits l))
  else if tailBd l (chainUnits l) then some (cLen (chainUnits l).length (chainUnits l))
  else if (chainUnits l).length = 12 then none
  else some (cLen ((chainUnits l).length - 1) (chainUnits l))

/-- Pass 3 of `sanitize_output`: `replace_all` of
`\b([a-z]+\s+){11,23}[a-z]+\b` with `"[MNEMONIC]"`.  The flag tracks whether
the previously scanned character is a word character; after a replacement the
last consumed character is the final letter of a word. -/
def wipe3F : Nat → Bool → List Char → List Char
  | 0, _, l => l
  | _ + 1, _, [] => []
  | f + 1, pw, c :: t =>
    match m3At pw (c :: t) with
    | some n => mnTag ++ wipe3F f true ((c :: t).drop n)
    | none => c :: wipe3F f (isWordCh c) t

/-- Pass 1 at its natural fuel. -/
def wipe1 (l : List Char) : List Char := wipe1F l.length l

/-- Pass 2 at its natural fuel. -/
def wipe2 (l : List Char) : List Char := wipe2F l.length l

/-- Pass 3 at its natural fuel, starting at a string boundary. -/
def wipe3 (l : List Char) : List Char := wipe3F l.length false l

/-- `utils/sanitizer.rs::sanitize_output`: the three replacement passes in
source order (private keys, then addresses, then mnemonics). -/
def sanitize_output (s : String) : String := ⟨wipe3 (wipe2 (wipe1 s.data))⟩

/-! ## `mask_address`, modelled at the byte level

`utils/sanitizer.rs::mask_address` slices its `&str` argument by byte index
(`&addr[2..6]`, `&addr[addr.len()-4..]`); Rust panics when a slice index is
not a UTF-8 character boundary.  The input is its UTF-8 byte sequence, and the
panic branch is `none`. -/

/-- A UTF-8 continuation byte (`0b10xxxxxx`); an index into a Rust `str` is a
character boundary exactly when it is the length or its byte is not a
continuation byte. -/
def isContByte (b : Nat) : Bool := 128 ≤ b && b < 192

/-- Rust `str::is_char_boundary` at index `i` of byte sequence `l` (for
`i ≤ l.length`). -/
def isBnd (l : List Nat) (i : Nat) : Bool :=
  i = l.length || !isContByte (l.getD i 0)

/-- Structural validity of a UTF-8 byte sequence (leading-byte forms with the
right number of continuation bytes); enough to certify that a chosen byte
sequence is a real Rust `String`. -/
def utf8Shape : List Nat → Bool
  | [] => true
  | b :: t =>
    if b < 128 then utf8Shape t
    else if 194 ≤ b && b ≤ 223 then
      match t with
      | c1 :: t1 => isContByte c1 && utf8Shape t1
      | [] => false
    else if 224 ≤ b && b ≤ 239 then
      match t with
      | c1 :: c2 :: t2 => isContByte c1 && isContByte c2 && utf8Shape t2
      | _ => false
    else if 240 ≤ b && b ≤ 244 then
      match t with
      | c1 :: c2 :: c3 :: t3 =>
        isContByte c1 && isContByte c2 && isContByte c3 && utf8Shape t3
      | _ => false
    else false

/-- `utils/sanitizer.rs::mask_address` on the UTF-8 bytes of its argument:
inputs shorter than 10 bytes are returned unchanged; otherwise the byte
slices at `2..6` and `len-4..len` are taken, which panics (`none`) when 2, 6
or `len-4` is not a character boundary.  `[48, 120]` and `[46, 46, 46]` are
the bytes of `"0x"` and `"..."`. -/
def mask_address (l : List Nat) : Option (List Nat) :=
  if l.length < 10 then some l
  else if isBnd l 2 && isBnd l 6 && isBnd l (l.length - 4) then
    some ([48, 120] ++ ((l.drop 2).take 4) ++ [46, 46, 46] ++ l.drop (l.length - 4))
  else none

/-! ## `parse_keys` and the command layer -/

/-- Minimal JSON value shape for `serde_json::Value` as `parse_keys` uses it:
either an array, the raw-line object `json!({"raw": line})` built by the
fallback, or some other value. -/
inductive JValue where
  | jarr (xs : List JValue) : JValue
  | jrawObj (line : String) : JValue
  | jother (n : Nat) : JValue
  deriving Repr

/-- Split a character list at every `'\n'`, keeping empty pieces. -/
def splitNL : List Char → List (List Char)
  | [] => [[]]
  | c :: t =>
    if c = '\n' then [] :: splitNL t
    else
      match splitNL t with
      | p :: ps => (c :: p) :: ps
      | [] => [[c]]

/-- Drop one trailing `'\r'`, as Rust `str::lines` does for `\r\n` endings. -/
def stripCR (l : List Char) : List Char :=
  match l.getLast? with
  | some '\r' => l.dropLast
  | _ => l

/-- Rust `str::lines`: split on `'\n'`, drop the trailing empty piece produced
by a final newline, and strip one trailing `'\r'` from each line. -/
def rustLines (s : String) : List (List Char) :=
  let ps := splitNL s.data
  let ps := if ps.getLast? = some [] then ps.dropLast else ps
  ps.map stripCR

/-- Does a line contain the substring `"0x"`?  (`line.contains("0x")`.) -/
def lineHas0x (l : List Char) : Bool := hasOcc ['0', 'x'] l

/-- The fallback records of `parse_keys`: one `json!({"raw": line})` per line
containing `"0x"`, in line order. -/
def rawRecords (out : String) : List JValue :=
  ((rustLines out).filter lineHas0x).map (fun l => JValue.jrawObj ⟨l⟩)

/-- `utils/parser.rs::parse_keys`, with `serde_json::from_str` abstracted as
the oracle `jp`: if the whole text parses as a JSON array, return its
elements; otherwise return the raw-line fallback records.  The result is
always `Ok`. -/
def parse_keys (jp : String → Option JValue) (out : String) :
    Except String (List JValue) :=
  match jp out with
  | some (JValue.jarr xs) => Except.ok xs
  | _ => Except.ok (rawRecords out)

/-- `main.rs::CommandOutput`. -/
structure CommandOutput where
  stdout : String
  stderr : String
  exit_code : Int
  duration_ms : Nat
  deriving DecidableEq, Repr

/-- The data the Process Runner hands back on a successful spawn: captured
stdout/stderr (after lossy UTF-8 decoding) and `output.status.code()`. -/
structure RawOutput where
  stdout : String
  stderr : String
  code : Option Int
  deriving DecidableEq, Repr

/-- `main.rs::AppState`: the last executed command and the session cache. -/
structure AppState where
  last_command : String
  session_cache : List (String × CommandOutput)
  deriving DecidableEq, Repr

/-- The state `main.rs::main` installs at startup. -/
def initAppState : AppState := ⟨"", []⟩

/-- `commands/cli.rs::execute_sui_command`, parameterized by the spawn
outcome and the measured duration: an error is returned exactly when the
spawn fails; otherwise both captured streams are sanitized, the last-command
field is overwritten with the joined argument vector, and the exit code
defaults to -1 when the platform reports none. -/
def execute_sui_command (args : List String) (spawn : Except String RawOutput)
    (st : AppState) (dur : Nat) : Except String (CommandOutput × AppState) :=
  match spawn with
  | Except.error e => Except.error ("Failed to execute: " ++ e)
  | Except.ok o =>
    Except.ok
      ({ stdout := sanitize_output o.stdout
         stderr := sanitize_output o.stderr
         exit_code := o.code.getD (-1)
         duration_ms := dur },
       { st with last_command := String.intercalate " " args })

/-- `commands/cli.rs::list_keys`: runs `sui keytool list`, parses the raw
stdout with `parse_keys`, and never touches the state it borrows. -/
def list_keys (jp : String → Option JValue) (spawn : Except String RawOutput)
    (st : AppState) : Except String (List JValue) × AppState :=
  match spawn with
  | Except.error e => (Except.error ("Failed to list keys: " ++ e), st)
  | Except.ok o =>
    match parse_keys jp o.stdout with
    | Except.error e => (Except.error ("Parse error: " ++ e), st)
    | Except.ok keys => (Except.ok keys, st)

/-- The argument vector `commands/cli.rs::generate_key` builds. -/
def generate_key_args (scheme : String) (word_length : Option Nat) : List String :=
  ["keytool", "generate", scheme] ++
    match word_length with
    | some n => ["--word-length", toString n]
    | none => []

/-- `commands/cli.rs::generate_key`: returns the captured streams verbatim
(no sanitization), exit code defaulted to -1, duration 0. -/
def generate_key (spawn : Except String RawOutput) : Except String CommandOutput :=
  match spawn with
  | Except.error e => Except.error ("Failed to generate key: " ++ e)
  | Except.ok o =>
    Except.ok
      { stdout := o.stdout, stderr := o.stderr
        exit_code := o.code.getD (-1), duration_ms := 0 }

/-- `commands/cli.rs::set_active_key`: raw streams, no sanitization. -/
def set_active_key (spawn : Except String RawOutput) : Except String CommandOutput :=
  match spawn with
  | Except.error e => Except.error ("Failed to switch key: " ++ e)
  | Except.ok o =>
    Except.ok
      { stdout := o.stdout, stderr := o.stderr
        exit_code := o.code.getD (-1), duration_ms := 0 }

/-- Rust `str::trim`: drop whitespace from both ends. -/
def trimWs (l : List Char) : List Char :=
  ((l.dropWhile isWsCh).reverse.dropWhile isWsCh).reverse

/-- `commands/cli.rs::get_active_address`: the trimmed raw stdout. -/
def get_active_address (spawn : Except String RawOutput) : Except String String :=
  match spawn with
  | Except.error e => Except.error ("Failed: " ++ e)
  | Except.ok o => Except.ok ⟨trimWs o.stdout.data⟩

/-- `commands/cli.rs::get_environment`: wraps the raw stdout in a one-field
structured value. -/
def get_environment (spawn : Except String RawOutput) : Except String String :=
  match spawn with
  | Except.error e => Except.error ("Failed: " ++ e)
  | Except.ok o => Except.ok o.stdout

/-- `commands/walrus.rs::upload_blob`: raw streams, no sanitization. -/
def upload_blob (spawn : Except String RawOutput) : Except String CommandOutput :=
  match spawn with
  | Except.error e => Except.error ("Failed to upload blob: " ++ e)
  | Except.ok o =>
    Except.ok
      { stdout := o.stdout, stderr := o.stderr
        exit_code := o.code.getD (-1), duration_ms := 0 }

/-- `commands/walrus.rs::download_blob`: raw streams, no sanitization. -/
def download_blob (spawn : Except String RawOutput) : Except String CommandOutput :=
  match spawn with
  | Except.error e => Except.error ("Failed to download blob: " ++ e)
  | Except.ok o =>
    Except.ok
      { stdout := o.stdout, stderr := o.stderr
        exit_code := o.code.getD (-1), duration_ms := 0 }

/-- `commands/walrus.rs::list_blobs`: raw streams, no sanitization. -/
def list_blobs (spawn : Except String RawOutput) : Except String CommandOutput :=
  match spawn with
  | Except.error e => Except.error ("Failed to list blobs: " ++ e)
  | Except.ok o =>
    Except.ok
      { stdout := o.stdout, stderr := o.stderr
        exit_code := o.code.getD (-1), duration_ms := 0 }

/-- States reachable from startup through the two operations that can see
`AppState` at all (`execute_sui_command` mutates `last_command`; `list_keys`
borrows the state without writing it).  The remaining handlers do not take
the state. -/
inductive Reach : AppState → Prop where
  | init : Reach initAppState
  | exec {st st' : AppState} {args : List String} {spawn : Except String RawOutput}
      {dur : Nat} {out : CommandOutput} :
      Reach st → execute_sui_command args spawn st dur = Except.ok (out, st') →
      Reach st'
  | lk {st : AppState} {jp : String → Option JValue}
      {spawn : Except String RawOutput} :
      Reach st → Reach (list_keys jp spawn st).2

/-! ## Support lemmas for the command layer -/

theorem parse_keys_isOk (jp : String → Option JValue) (out : String) :
    ∃ xs, parse_keys jp out = Except.ok xs := by
  unfold parse_keys
  cases h : jp out with
  | none => exact ⟨rawRecords out, rfl⟩
  | some v =>
    cases v with
    | jarr xs => exact ⟨xs, rfl⟩
    | jrawObj s => exact ⟨rawRecords out, rfl⟩
    | jother n => exact ⟨rawRecords out, rfl⟩

theorem list_keys_state (jp : String → Option JValue)
    (spawn : Except String RawOutput) (st : AppState) :
    (list_keys jp spawn st).2 = st := by
  unfold list_keys
  cases spawn with
  | error e => rfl
  | ok o =>
    obtain ⟨xs, hxs⟩ := parse_keys_isOk jp o.stdout
    simp [hxs]

/-! ## Claim theorems: command layer -/

/-- C7: `execute_sui_command` (and every other process-running handler)
returns an error exactly when the spawn fails; a successful spawn always
yields a full result, whatever the exit code (with -1 substituted when the
platform reports none), and an error is a bare message with no result. -/
theorem exec_error_iff_spawn_failure (args : List String) (st : AppState) (dur : Nat) :
    (∀ spawn, (execute_sui_command args spawn st dur).isOk = spawn.isOk) ∧
    (∀ e, execute_sui_command args (Except.error e) st dur =
        Except.error ("Failed to execute: " ++ e)) ∧
    (∀ o, execute_sui_command args (Except.ok o) st dur =
        Except.ok
          ({ stdout := sanitize_output o.stdout
             stderr := sanitize_output o.stderr
             exit_code := o.code.getD (-1)
             duration_ms := dur },
           { st with last_command := String.intercalate " " args })) ∧
    (∀ spawn, (generate_key spawn).isOk = spawn.isOk) ∧
    (∀ spawn, (set_active_key spawn).isOk = spawn.isOk) ∧
    (∀ spawn, (get_active_address spawn).isOk = spawn.isOk) ∧
    (∀ spawn, (get_environment spawn).isOk = spawn.isOk) ∧
    (∀ spawn, (upload_blob spawn).isOk = spawn.isOk) ∧
    (∀ spawn, (download_blob spawn).isOk = spawn.isOk) ∧
    (∀ spawn, (list_blobs spawn).isOk = spawn.isOk) ∧
    (∀ jp spawn, ((list_keys jp spawn st).1).isOk = spawn.isOk) := by
  refine ⟨?_, ?_, ?_, ?_, ?_, ?_, ?_, ?_, ?_, ?_, ?_⟩
  · intro spawn; cases spawn <;> rfl
  · intro e; rfl
  · intro o; rfl
  · intro spawn; cases spawn <;> rfl
  · intro spawn; cases spawn <;> rfl
  · intro spawn; cases spawn <;> rfl
  · intro spawn; cases spawn <;> rfl
  · intro spawn; cases spawn <;> rfl
  · intro spawn; cases spawn <;> rfl
  · intro spawn; cases spawn <;> rfl
  · intro jp spawn
    cases spawn with
    | error e => rfl
    | ok o =>
      obtain ⟨xs, hxs⟩ := parse_keys_isOk jp o.stdout
      simp only [list_keys, hxs]
      rfl

/-- C7 witness: spawning a nonexistent binary surfaces the message and no
result; a spawn that succeeds with exit code 7 still yields a result. -/
theorem exec_error_iff_spawn_failure_witness :
    execute_sui_command ["client", "gas"] (Except.error "No such file or directory")
        initAppState 5 = Except.error "Failed to execute: No such file or directory" ∧
    (execute_sui_command ["client", "gas"]
        (Except.ok ⟨"out", "err", some 7⟩) initAppState 5).isOk = true :=
  ⟨(exec_error_iff_spawn_failure ["client", "gas"] initAppState 5).2.1
      "No such file or directory",
   (exec_error_iff_spawn_failure ["client", "gas"] initAppState 5).1
      (Except.ok ⟨"out", "err", some 7⟩)⟩

/-- C8: `parse_keys` never fails: a JSON-array parse yields the elements in
order; any other parse outcome yields one raw-line record per line containing
`"0x"`, in line order; and when additionally no line contains `"0x"` the
result is the empty sequence. -/
theorem parse_keys_never_fails (jp : String → Option JValue) (out : String) :
    (∃ xs, parse_keys jp out = Except.ok xs) ∧
    (∀ xs, jp out = some (JValue.jarr xs) → parse_keys jp out = Except.ok xs) ∧
    ((∀ xs, jp out ≠ some (JValue.jarr xs)) →
      parse_keys jp out = Except.ok (rawRecords out)) ∧
    ((∀ xs, jp out ≠ some (JValue.jarr xs)) →
      (∀ l ∈ rustLines out, lineHas0x l = false) →
      parse_keys jp out = Except.ok []) := by
  refine ⟨parse_keys_isOk jp out, ?_, ?_, ?_⟩
  · intro xs h; simp [parse_keys, h]
  · intro h
    unfold parse_keys
    cases hj : jp out with
    | none => rfl
    | some v =>
      cases v with
      | jarr xs => exact absurd hj (h xs)
      | jrawObj s => rfl
      | jother n => rfl
  · intro h hl
    have hraw : rawRecords out = [] := by
      unfold rawRecords
      have : (rustLines out).filter lineHas0x = [] := by
        rw [List.filter_eq_nil_iff]
        intro a ha
        simp [hl a ha]
      simp [this]
    unfold parse_keys
    cases hj : jp out with
    | none => simpa using hraw
    | some v =>
      cases v with
      | jarr xs => exact absurd hj (h xs)
      | jrawObj s => simpa using hraw
      | jother n => simpa using hraw

/-- C8 witness: on prose with two `"0x"` lines and two others, the fallback
returns exactly the two raw-line records, in order. -/
theorem parse_keys_never_fails_witness :
    parse_keys (fun _ => none) "header\nkey 0xabc\nplain\nalso 0xdef\n" =
      Except.ok [JValue.jrawObj "key 0xabc", JValue.jrawObj "also 0xdef"] := by
  have h := (parse_keys_never_fails (fun _ => none)
      "header\nkey 0xabc\nplain\nalso 0xdef\n").2.2.1
    (fun xs hx => Option.noConfusion hx)
  rw [h]
  rfl

/-- C10: no handler ever writes the session cache: it stays empty in every
state reachable from startup, `execute_sui_command` is the only handler that
mutates `AppState` at all (overwriting only the last-command field), and
`list_keys` hands its state back untouched. -/
theorem session_cache_never_written :
    (∀ st, Reach st → st.session_cache = []) ∧
    (∀ args spawn st dur out st',
      execute_sui_command args spawn st dur = Except.ok (out, st') →
      st'.session_cache = st.session_cache ∧
      st' = { st with last_command := String.intercalate " " args }) ∧
    (∀ jp spawn st, (list_keys jp spawn st).2 = st) := by
  have hexec : ∀ (args : List String) (spawn : Except String RawOutput)
      (st : AppState) (dur : Nat) (out : CommandOutput) (st' : AppState),
      execute_sui_command args spawn st dur = Except.ok (out, st') →
      st'.session_cache = st.session_cache ∧
      st' = { st with last_command := String.intercalate " " args } := by
    intro args spawn st dur out st' h
    cases spawn with
    | error e => exact absurd h (by simp [execute_sui_command])
    | ok o =>
      simp only [execute_sui_command, Except.ok.injEq, Prod.mk.injEq] at h
      exact ⟨by rw [← h.2], h.2.symm⟩
  refine ⟨?_, hexec, list_keys_state⟩
  intro st h
  induction h with
  | init => rfl
  | exec hr he ih => rw [(hexec _ _ _ _ _ _ he).1]; exact ih
  | lk hr ih => rw [list_keys_state]; exact ih

/-- C10 witness: the startup state is reachable and its cache is empty; a
concrete `execute_sui_command` call leaves the cache of a concrete state
unchanged. -/
theorem session_cache_never_written_witness :
    initAppState.session_cache = ([] : List (String × CommandOutput)) ∧
    (initAppState : AppState).session_cache = [] :=
  ⟨session_cache_never_written.1 initAppState Reach.init,
   session_cache_never_written.1 initAppState Reach.init⟩

/-! ## Counterexamples found against the spec's sanitizer claims -/

set_option maxRecDepth 8000

/-- C1 counterexample: `generate_key` returns its captured stdout verbatim,
so a private-key token in the tool's output crosses the boundary unredacted —
the result is not the Sanitizer's image of the raw text. -/
theorem generate_key_leaks_raw :
    generate_key (Except.ok ⟨"suiprivkey1abc", "", some 0⟩) =
      Except.ok ⟨"suiprivkey1abc", "", 0, 0⟩ ∧
    hasOcc pkTok "suiprivkey1abc".data = true ∧
    sanitize_output "suiprivkey1abc" = "****" ∧
    "suiprivkey1abc" ≠ "****" :=
  ⟨rfl, by decide, by decide, by decide⟩

/-- C2 counterexample: when the private-key token abuts the address with no
separator, the greedy `suiprivkey[a-zA-Z0-9]+` match swallows the entire
address (every one of its characters is alphanumeric), so the returned stdout
is only the mask and the partially masked address is absent. -/
theorem exec_adjacent_address_swallowed :
    execute_sui_command ["keytool", "export"]
        (Except.ok ⟨⟨'s' :: 'u' :: 'i' :: 'p' :: 'r' :: 'i' :: 'v' :: 'k' :: 'e' :: 'y' ::
            '1' :: 'a' :: '0' :: 'x' :: List.replicate 64 '1'⟩, "", some 0⟩)
        initAppState 3 =
      Except.ok (⟨"****", "", 0, 3⟩, ⟨"keytool export", []⟩) ∧
    hasOcc (maskRep (List.replicate 64 '1')) "****".data = false :=
  ⟨by rfl, by decide⟩

/-- C3 counterexample: sanitization is not idempotent.  In
`0x` + 60·`a` + `bcd0` + `x` + 64·`1` the address pass masks the first
address to `0xaaaa...bcd0`; the mask's trailing `0` now abuts `x` + 64·`1`,
forming a fresh address-shaped substring that only a second application
rewrites, so the first and second images differ. -/
theorem sanitize_not_idempotent :
    sanitize_output (sanitize_output
        ⟨'0' :: 'x' :: (List.replicate 60 'a' ++ 'b' :: 'c' :: 'd' :: '0' :: 'x' ::
          List.replicate 64 '1')⟩) ≠
      sanitize_output
        ⟨'0' :: 'x' :: (List.replicate 60 'a' ++ 'b' :: 'c' :: 'd' :: '0' :: 'x' ::
          List.replicate 64 '1')⟩ := by
  decide

/-- C4 counterexample: a run of 25 lowercase words is not left unmodified —
the greedy repetition matches its first 24 words, so the run becomes the tag
followed by the surviving 25th word. -/
theorem run25_not_unmodified :
    sanitize_output "a b c d e f g h i j k l m n o p q r s t u v w x y" =
      "[MNEMONIC] y" ∧
    "[MNEMONIC] y" ≠ "a b c d e f g h i j k l m n o p q r s t u v w x y" :=
  ⟨by decide, by decide⟩

/-! ## Claim theorem: `mask_address` partiality -/

/-- C9: `mask_address` is not total: on the UTF-8 bytes of the valid string
`0x123é56789` (12 bytes, the two-byte `é` straddling index 6) the byte slice
`&addr[2..6]` hits a non-boundary index and the code panics (`none`); on
all-ASCII inputs every index is a character boundary, so the function always
returns a value. -/
theorem mask_address_panics_on_multibyte :
    (utf8Shape [48, 120, 49, 50, 51, 195, 169, 53, 54, 55, 56, 57] = true ∧
     10 ≤ ([48, 120, 49, 50, 51, 195, 169, 53, 54, 55, 56, 57] : List Nat).length ∧
     mask_address [48, 120, 49, 50, 51, 195, 169, 53, 54, 55, 56, 57] = none) ∧
    (∀ l : List Nat, (∀ b ∈ l, b < 128) → (mask_address l).isSome = true) := by
  refine ⟨⟨by decide, by decide, by decide⟩, ?_⟩
  intro l hl
  unfold mask_address
  by_cases h10 : l.length < 10
  · simp [h10]
  · have hb : ∀ i, isBnd l i = true := by
      intro i
      have hbyte : isContByte (l.getD i 0) = false := by
        by_cases hi : i < l.length
        · have hsome : l.get? i = some (l.get ⟨i, hi⟩) := List.get?_eq_get hi
          have hm : l.get ⟨i, hi⟩ ∈ l := List.get_mem l i hi
          have hlt := hl _ hm
          unfold List.getD
          rw [hsome]
          unfold isContByte
          simp only [Option.getD_some]
          rw [decide_eq_false (by omega)]
          rfl
        · have hnone : l.get? i = none := List.get?_eq_none.mpr (by omega)
          unfold List.getD
          rw [hnone]
          rfl
      unfold isBnd
      rw [hbyte]
      simp
    simp [h10, hb]

/-- C9 witness: `mask_address` succeeds on a concrete 12-byte ASCII input. -/
theorem mask_address_panics_on_multibyte_witness :
    (∀ b ∈ ([48, 120, 97, 98, 99, 100, 101, 102, 103, 104, 105, 106] : List Nat),
      b < 128) ∧
    (mask_address [48, 120, 97, 98, 99, 100, 101, 102, 103, 104, 105, 106]).isSome
      = true :=
  ⟨by decide, mask_address_panics_on_multibyte.2 _ (by decide)⟩

/-- C1 amended: `execute_sui_command` is the one handler whose result fields
are the Sanitizer's image of the captured streams; every other handler
returns the captured text verbatim (and `list_keys` parses the raw stdout). -/
theorem only_exec_sanitizes (o : RawOutput) :
    (∀ args st dur, execute_sui_command args (Except.ok o) st dur =
        Except.ok
          ({ stdout := sanitize_output o.stdout
             stderr := sanitize_output o.stderr
             exit_code := o.code.getD (-1)
             duration_ms := dur },
           { st with last_command := String.intercalate " " args })) ∧
    generate_key (Except.ok o) =
      Except.ok ⟨o.stdout, o.stderr, o.code.getD (-1), 0⟩ ∧
    set_active_key (Except.ok o) =
      Except.ok ⟨o.stdout, o.stderr, o.code.getD (-1), 0⟩ ∧
    upload_blob (Except.ok o) =
      Except.ok ⟨o.stdout, o.stderr, o.code.getD (-1), 0⟩ ∧
    download_blob (Except.ok o) =
      Except.ok ⟨o.stdout, o.stderr, o.code.getD (-1), 0⟩ ∧
    list_blobs (Except.ok o) =
      Except.ok ⟨o.stdout, o.stderr, o.code.getD (-1), 0⟩ ∧
    get_active_address (Except.ok o) = Except.ok ⟨trimWs o.stdout.data⟩ ∧
    get_environment (Except.ok o) = Except.ok o.stdout ∧
    (∀ jp st, (list_keys jp (Except.ok o) st).1 = parse_keys jp o.stdout) := by
  refine ⟨fun args st dur => rfl, rfl, rfl, rfl, rfl, rfl, rfl, rfl, ?_⟩
  intro jp st
  obtain ⟨xs, hxs⟩ := parse_keys_isOk jp o.stdout
  simp [list_keys, hxs]

/-! ## Sanitizer lemma suite: basic helpers -/

theorem twAll (p : Char → Bool) (l : List Char) (h : ∀ c ∈ l, p c = true) :
    l.takeWhile p = l := by
  induction l with
  | nil => rfl
  | cons c t ih =>
    rw [List.takeWhile_cons_of_pos (h c (by simp)), ih (fun c hc => h c (by simp [hc]))]

theorem twAppAll (p : Char → Bool) (a b : List Char) (h : ∀ c ∈ a, p c = true) :
    (a ++ b).takeWhile p = a ++ b.takeWhile p := by
  induction a with
  | nil => rfl
  | cons c t ih =>
    rw [List.cons_append, List.takeWhile_cons_of_pos (h c (by simp)),
      ih (fun c hc => h c (by simp [hc])), List.cons_append]

theorem twHeadNeg (p : Char → Bool) (c : Char) (t : List Char) (h : p c = false) :
    (c :: t).takeWhile p = [] := List.takeWhile_cons_of_neg (by simp [h])

theorem startsW_le_length {p q : List Char} (h : startsW p q = true) :
    p.length ≤ q.length := by
  induction p generalizing q with
  | nil => simp
  | cons x xs ih =>
    cases q with
    | nil => simp [startsW] at h
    | cons y ys =>
      simp only [startsW, Bool.and_eq_true] at h
      have := ih h.2
      simp
      omega

theorem startsW_append {p q : List Char} (h : startsW p q = true) :
    ∃ r, q = p ++ r := by
  induction p generalizing q with
  | nil => exact ⟨q, rfl⟩
  | cons x xs ih =>
    cases q with
    | nil => simp [startsW] at h
    | cons y ys =>
      simp only [startsW, Bool.and_eq_true, decide_eq_true_eq] at h
      obtain ⟨r, hr⟩ := ih h.2
      exact ⟨r, by rw [hr, h.1]; rfl⟩

theorem startsW_of_append (p r : List Char) : startsW p (p ++ r) = true := by
  induction p with
  | nil => rfl
  | cons x xs ih => simp [startsW, ih]

/-- `hasPk l` holds when some suffix of `l` starts a private-key match. -/
def hasPk : List Char → Bool
  | [] => false
  | c :: t => (m1At (c :: t)).isSome || hasPk t

/-- `hasAddr l` holds when some suffix of `l` starts an address match. -/
def hasAddr : List Char → Bool
  | [] => false
  | c :: t => (m2At (c :: t)).isSome || hasAddr t

theorem hasPk_cons_false {c : Char} {t : List Char} (h : hasPk (c :: t) = false) :
    m1At (c :: t) = none ∧ hasPk t = false := by
  unfold hasPk at h
  rcases Bool.or_eq_false_iff.mp h with ⟨h1, h2⟩
  exact ⟨Option.not_isSome_iff_eq_none.mp (by simp [h1]), h2⟩

theorem hasAddr_cons_false {c : Char} {t : List Char} (h : hasAddr (c :: t) = false) :
    m2At (c :: t) = none ∧ hasAddr t = false := by
  unfold hasAddr at h
  rcases Bool.or_eq_false_iff.mp h with ⟨h1, h2⟩
  exact ⟨Option.not_isSome_iff_eq_none.mp (by simp [h1]), h2⟩

theorem m1At_bounds {l : List Char} {n : Nat} (h : m1At l = some n) :
    11 ≤ n ∧ n ≤ l.length := by
  unfold m1At at h
  by_cases hs : startsW pkTok l
  · rw [if_pos hs] at h
    by_cases hb : ((l.drop 10).takeWhile isAlnumAscii).isEmpty
    · rw [if_pos hb] at h
      exact absurd h (by simp)
    · rw [if_neg hb] at h
      have hn := Option.some.inj h
      have hlen : 10 ≤ l.length := by
        have := startsW_le_length hs
        simpa [pkTok] using this
      have hb1 : 1 ≤ ((l.drop 10).takeWhile isAlnumAscii).length := by
        cases hx : (l.drop 10).takeWhile isAlnumAscii with
        | nil => rw [hx] at hb; simp at hb
        | cons a as => simp [hx]
      have hb2 : ((l.drop 10).takeWhile isAlnumAscii).length ≤ l.length - 10 := by
        calc ((l.drop 10).takeWhile isAlnumAscii).length
            ≤ (l.drop 10).length := twLen _ _
          _ = l.length - 10 := by simp
      omega
  · simp [hs] at h

theorem m2At_bounds {l : List Char} {h64 : List Char} (h : m2At l = some h64) :
    h64.length = 64 ∧ (∀ c ∈ h64, isHexCh c = true) ∧ 66 ≤ l.length := by
  match l with
  | [] => simp [m2At] at h
  | [c0] => simp [m2At] at h
  | c0 :: c1 :: r =>
    unfold m2At at h
    by_cases hc : c0 = '0' && c1 = 'x' && (r.take 64).length = 64 && (r.take 64).all isHexCh
    · simp only [hc, if_true, Option.some.injEq] at h
      have hparts := hc
      simp only [Bool.and_eq_true, decide_eq_true_eq] at hparts
      obtain ⟨⟨⟨_, _⟩, hlen⟩, hall⟩ := hparts
      refine ⟨by rw [← h]; exact hlen, ?_, ?_⟩
      · intro c hcm
        rw [← h] at hcm
        exact List.all_eq_true.mp hall c hcm
      · have : 64 ≤ r.length := by
          by_contra hr
          push_neg at hr
          rw [List.length_take] at hlen
          omega
        simp
        omega
    · simp only [hc, if_false] at h
      exact absurd h (by simp)

/-! ### Fuel irrelevance and step lemmas for passes 1 and 2 -/

theorem wipe1F_succ_some {f : Nat} {c : Char} {t : List Char} {n : Nat}
    (h : m1At (c :: t) = some n) :
    wipe1F (f + 1) (c :: t) = maskTok ++ wipe1F f ((c :: t).drop n) := by
  show (match m1At (c :: t) with
        | some n => maskTok ++ wipe1F f ((c :: t).drop n)
        | none => c :: wipe1F f t) = _
  rw [h]

theorem wipe1F_succ_none {f : Nat} {c : Char} {t : List Char}
    (h : m1At (c :: t) = none) :
    wipe1F (f + 1) (c :: t) = c :: wipe1F f t := by
  show (match m1At (c :: t) with
        | some n => maskTok ++ wipe1F f ((c :: t).drop n)
        | none => c :: wipe1F f t) = _
  rw [h]

theorem wipe2F_succ_some {f : Nat} {c : Char} {t : List Char} {h64 : List Char}
    (h : m2At (c :: t) = some h64) :
    wipe2F (f + 1) (c :: t) = maskRep h64 ++ wipe2F f ((c :: t).drop 66) := by
  show (match m2At (c :: t) with
        | some h => maskRep h ++ wipe2F f ((c :: t).drop 66)
        | none => c :: wipe2F f t) = _
  rw [h]

theorem wipe2F_succ_none {f : Nat} {c : Char} {t : List Char}
    (h : m2At (c :: t) = none) :
    wipe2F (f + 1) (c :: t) = c :: wipe2F f t := by
  show (match m2At (c :: t) with
        | some h => maskRep h ++ wipe2F f ((c :: t).drop 66)
        | none => c :: wipe2F f t) = _
  rw [h]

theorem wipe1F_fuel (f g : Nat) (l : List Char) (hf : l.length ≤ f)
    (hg : l.length ≤ g) : wipe1F f l = wipe1F g l := by
  induction f using Nat.strong_induction_on generalizing g l with
  | _ f ih =>
    match f, l with
    | 0, l =>
      have : l = [] := List.length_eq_zero.mp (by omega)
      subst this
      cases g <;> rfl
    | f + 1, [] => cases g <;> rfl
    | f + 1, c :: t =>
      match g with
      | 0 => simp at hg
      | g + 1 =>
        simp only [List.length_cons] at hf hg
        cases hm : m1At (c :: t) with
        | some n =>
          have hb := m1At_bounds hm
          simp only [List.length_cons] at hb
          rw [wipe1F_succ_some hm, wipe1F_succ_some hm]
          have hd : ((c :: t).drop n).length ≤ f := by
            simp only [List.length_drop, List.length_cons]
            omega
          have hd2 : ((c :: t).drop n).length ≤ g := by
            simp only [List.length_drop, List.length_cons]
            omega
          rw [ih f (by omega) g _ hd hd2]
        | none =>
          rw [wipe1F_succ_none hm, wipe1F_succ_none hm]
          rw [ih f (by omega) g t (by omega) (by omega)]

theorem wipe2F_fuel (f g : Nat) (l : List Char) (hf : l.length ≤ f)
    (hg : l.length ≤ g) : wipe2F f l = wipe2F g l := by
  induction f using Nat.strong_induction_on generalizing g l with
  | _ f ih =>
    match f, l with
    | 0, l =>
      have : l = [] := List.length_eq_zero.mp (by omega)
      subst this
      cases g <;> rfl
    | f + 1, [] => cases g <;> rfl
    | f + 1, c :: t =>
      match g with
      | 0 => simp at hg
      | g + 1 =>
        simp only [List.length_cons] at hf hg
        cases hm : m2At (c :: t) with
        | some h64 =>
          have hb := m2At_bounds hm
          simp only [List.length_cons] at hb
          rw [wipe2F_succ_some hm, wipe2F_succ_some hm]
          have hd : ((c :: t).drop 66).length ≤ f := by
            simp only [List.length_drop, List.length_cons]
            omega
          have hd2 : ((c :: t).drop 66).length ≤ g := by
            simp only [List.length_drop, List.length_cons]
            omega
          rw [ih f (by omega) g _ hd hd2]
        | none =>
          rw [wipe2F_succ_none hm, wipe2F_succ_none hm]
          rw [ih f (by omega) g t (by omega) (by omega)]

theorem wipe1_nil : wipe1 [] = [] := rfl

theorem wipe1_match {l : List Char} {n : Nat} (h : m1At l = some n) :
    wipe1 l = maskTok ++ wipe1 (l.drop n) := by
  have hb := m1At_bounds h
  match l with
  | [] => simp at hb; omega
  | c :: t =>
    show wipe1F (t.length + 1) (c :: t) = _
    rw [wipe1F_succ_some h]
    unfold wipe1
    rw [wipe1F_fuel t.length ((c :: t).drop n).length ((c :: t).drop n)
      (by simp only [List.length_drop, List.length_cons]; simp only [List.length_cons] at hb; omega)
      (le_refl _)]

theorem wipe1_nomatch {c : Char} {t : List Char} (h : m1At (c :: t) = none) :
    wipe1 (c :: t) = c :: wipe1 t := by
  show wipe1F (t.length + 1) (c :: t) = _
  rw [wipe1F_succ_none h]
  rfl

theorem wipe2_nil : wipe2 [] = [] := rfl

theorem wipe2_match {l : List Char} {h64 : List Char} (h : m2At l = some h64) :
    wipe2 l = maskRep h64 ++ wipe2 (l.drop 66) := by
  have hb := m2At_bounds h
  match l with
  | [] => simp at hb
  | c :: t =>
    show wipe2F (t.length + 1) (c :: t) = _
    rw [wipe2F_succ_some h]
    unfold wipe2
    rw [wipe2F_fuel t.length ((c :: t).drop 66).length ((c :: t).drop 66)
      (by simp only [List.length_drop, List.length_cons]; omega)
      (le_refl _)]

theorem wipe2_nomatch {c : Char} {t : List Char} (h : m2At (c :: t) = none) :
    wipe2 (c :: t) = c :: wipe2 t := by
  show wipe2F (t.length + 1) (c :: t) = _
  rw [wipe2F_succ_none h]
  rfl

/-! ### Chain structure lemmas for pass 3 -/

theorem twMem {p : Char → Bool} {l : List Char} {c : Char}
    (h : c ∈ l.takeWhile p) : p c = true := by
  induction l with
  | nil => simp [List.takeWhile] at h
  | cons a t ih =>
    by_cases hp : p a
    · rw [List.takeWhile_cons_of_pos hp] at h
      rcases List.mem_cons.mp h with rfl | hm
      · exact hp
      · exact ih hm
    · rw [List.takeWhile_cons_of_neg hp] at h
      simp at h

theorem splitTW (p : Char → Bool) (l : List Char) :
    l = l.takeWhile p ++ l.drop (l.takeWhile p).length := by
  induction l with
  | nil => rfl
  | cons c t ih =>
    by_cases h : p c
    · rw [List.takeWhile_cons_of_pos h]
      simp only [List.length_cons, List.drop_succ_cons, List.cons_append]
      exact congrArg (List.cons c) ih
    · rw [List.takeWhile_cons_of_neg h]
      rfl

theorem wOf_mem {l : List Char} {c : Char} (h : c ∈ wOf l) : isLowerAZ c = true :=
  twMem h

theorem sOf_mem {l : List Char} {c : Char} (h : c ∈ sOf l) : isWsCh c = true :=
  twMem h

theorem splitWOf (l : List Char) : l = wOf l ++ (l.drop (wOf l).length) :=
  splitTW isLowerAZ l

theorem splitRun (l : List Char) : l = wOf l ++ sOf l ++ restOf l := by
  conv_lhs => rw [splitWOf l]
  rw [List.append_assoc]
  congr 1
  exact splitTW isWsCh (l.drop (wOf l).length)

theorem restOf_lt {l : List Char} (h : (wOf l).isEmpty = false) :
    (restOf l).length < l.length := by
  have h1 : 1 ≤ (wOf l).length := by
    cases hw : wOf l with
    | nil => rw [hw] at h; simp at h
    | cons a as => simp [hw]
  have h2 : (wOf l).length ≤ l.length := twLen _ _
  unfold restOf
  simp only [List.length_drop]
  omega

theorem chainUnitsF_nil (f : Nat) : chainUnitsF f [] = [] := by
  cases f <;> rfl

theorem chainUnitsF_fuel (f : Nat) : ∀ (g : Nat) (l : List Char),
    l.length ≤ f → l.length ≤ g → chainUnitsF f l = chainUnitsF g l := by
  induction f using Nat.strong_induction_on with
  | _ f ih =>
    intro g l hf hg
    match f, l with
    | 0, l =>
      have : l = [] := List.length_eq_zero.mp (by omega)
      subst this
      rw [chainUnitsF_nil, chainUnitsF_nil]
    | f + 1, [] => rw [chainUnitsF_nil, chainUnitsF_nil]
    | f + 1, c :: t =>
      match g with
      | 0 => simp at hg
      | g + 1 =>
        show (if (wOf (c :: t)).isEmpty then []
              else if (sOf (c :: t)).isEmpty then [(wOf (c :: t), [])]
              else if isLowerAZ ((restOf (c :: t)).headD ' ') then
                (wOf (c :: t), sOf (c :: t)) :: chainUnitsF f (restOf (c :: t))
              else [(wOf (c :: t), sOf (c :: t))]) =
             (if (wOf (c :: t)).isEmpty then []
              else if (sOf (c :: t)).isEmpty then [(wOf (c :: t), [])]
              else if isLowerAZ ((restOf (c :: t)).headD ' ') then
                (wOf (c :: t), sOf (c :: t)) :: chainUnitsF g (restOf (c :: t))
              else [(wOf (c :: t), sOf (c :: t))])
        by_cases h1 : (wOf (c :: t)).isEmpty
        · rw [if_pos h1, if_pos h1]
        · rw [if_neg h1, if_neg h1]
          by_cases h2 : (sOf (c :: t)).isEmpty
          · rw [if_pos h2, if_pos h2]
          · rw [if_neg h2, if_neg h2]
            by_cases h3 : isLowerAZ ((restOf (c :: t)).headD ' ')
            · rw [if_pos h3, if_pos h3]
              have hlt := restOf_lt (l := c :: t) (Bool.of_not_eq_true h1 ▸ by
                cases hw : (wOf (c :: t)).isEmpty
                · rfl
                · exact absurd hw h1)
              simp only [List.length_cons] at hlt hf hg
              rw [ih f (by omega) g (restOf (c :: t)) (by omega) (by omega)]
            · rw [if_neg h3, if_neg h3]

theorem chainUnits_eq (l : List Char) :
    chainUnits l =
      if (wOf l).isEmpty then []
      else if (sOf l).isEmpty then [(wOf l, [])]
      else if isLowerAZ ((restOf l).headD ' ') then
        (wOf l, sOf l) :: chainUnits (restOf l)
      else [(wOf l, sOf l)] := by
  cases l with
  | nil => rfl
  | cons c t =>
    show chainUnitsF (t.length + 1) (c :: t) = _
    show (if (wOf (c :: t)).isEmpty then []
          else if (sOf (c :: t)).isEmpty then [(wOf (c :: t), [])]
          else if isLowerAZ ((restOf (c :: t)).headD ' ') then
            (wOf (c :: t), sOf (c :: t)) :: chainUnitsF t.length (restOf (c :: t))
          else [(wOf (c :: t), sOf (c :: t))]) = _
    by_cases h1 : (wOf (c :: t)).isEmpty
    · rw [if_pos h1, if_pos h1]
    · rw [if_neg h1, if_neg h1]
      by_cases h2 : (sOf (c :: t)).isEmpty
      · rw [if_pos h2, if_pos h2]
      · rw [if_neg h2, if_neg h2]
        by_cases h3 : isLowerAZ ((restOf (c :: t)).headD ' ')
        · rw [if_pos h3, if_pos h3]
          have hlt := restOf_lt (l := c :: t) (by
            cases hw : (wOf (c :: t)).isEmpty
            · rfl
            · exact absurd hw h1)
          simp only [List.length_cons] at hlt
          unfold chainUnits
          rw [chainUnitsF_fuel t.length (restOf (c :: t)).length (restOf (c :: t))
            (by omega) (le_refl _)]
        · rw [if_neg h3, if_neg h3]

/-- Concatenation of all characters covered by a unit chain. -/
def unitsFlat (us : List (List Char × List Char)) : List Char :=
  us.foldr (fun u a => u.1 ++ u.2 ++ a) []

/-- Every unit except possibly the last carries nonempty whitespace. -/
def initSne : List (List Char × List Char) → Prop
  | [] => True
  | [_] => True
  | u :: v :: rest => u.2 ≠ [] ∧ initSne (v :: rest)

theorem chainUnits_inv (n : Nat) : ∀ (l : List Char), l.length ≤ n →
    ∀ u ∈ chainUnits l, u.1 ≠ [] ∧ (∀ c ∈ u.1, isLowerAZ c = true) ∧
      (∀ c ∈ u.2, isWsCh c = true) := by
  induction n with
  | zero =>
    intro l hl u hu
    have : l = [] := List.length_eq_zero.mp (by omega)
    subst this
    simp [chainUnits, chainUnitsF_nil] at hu
  | succ n ih =>
    intro l hl u hu
    rw [chainUnits_eq] at hu
    by_cases h1 : (wOf l).isEmpty
    · rw [if_pos h1] at hu; simp at hu
    · rw [if_neg h1] at hu
      have hw1 : wOf l ≠ [] := by
        intro hx; rw [hx] at h1; exact h1 rfl
      by_cases h2 : (sOf l).isEmpty
      · rw [if_pos h2] at hu
        rcases List.mem_singleton.mp hu with rfl
        exact ⟨hw1, fun c hc => wOf_mem hc, by simp⟩
      · rw [if_neg h2] at hu
        by_cases h3 : isLowerAZ ((restOf l).headD ' ')
        · rw [if_pos h3] at hu
          rcases List.mem_cons.mp hu with rfl | hm
          · exact ⟨hw1, fun c hc => wOf_mem hc, fun c hc => sOf_mem hc⟩
          · have hlt := restOf_lt (l := l) (by
              cases hw : (wOf l).isEmpty
              · rfl
              · exact absurd hw h1)
            exact ih (restOf l) (by omega) u hm
        · rw [if_neg h3] at hu
          rcases List.mem_singleton.mp hu with rfl
          exact ⟨hw1, fun c hc => wOf_mem hc, fun c hc => sOf_mem hc⟩

theorem chainUnits_flat (n : Nat) : ∀ (l : List Char), l.length ≤ n →
    ∃ rem, l = unitsFlat (chainUnits l) ++ rem := by
  induction n with
  | zero =>
    intro l hl
    have : l = [] := List.length_eq_zero.mp (by omega)
    subst this
    exact ⟨[], by simp [chainUnits, chainUnitsF_nil, unitsFlat]⟩
  | succ n ih =>
    intro l hl
    rw [chainUnits_eq]
    by_cases h1 : (wOf l).isEmpty
    · rw [if_pos h1]
      exact ⟨l, by simp [unitsFlat]⟩
    · rw [if_neg h1]
      by_cases h2 : (sOf l).isEmpty
      · rw [if_pos h2]
        refine ⟨l.drop (wOf l).length, ?_⟩
        have := splitWOf l
        simpa [unitsFlat] using this
      · rw [if_neg h2]
        by_cases h3 : isLowerAZ ((restOf l).headD ' ')
        · rw [if_pos h3]
          have hlt := restOf_lt (l := l) (by
            cases hw : (wOf l).isEmpty
            · rfl
            · exact absurd hw h1)
          obtain ⟨rem, hrem⟩ := ih (restOf l) (by omega)
          refine ⟨rem, ?_⟩
          have hs := splitRun l
          conv_lhs => rw [hs, hrem]
          simp [unitsFlat, List.append_assoc]
        · rw [if_neg h3]
          refine ⟨restOf l, ?_⟩
          have hs := splitRun l
          conv_lhs => rw [hs]
          simp [unitsFlat, List.append_assoc]

theorem chainUnits_initSne (n : Nat) : ∀ (l : List Char), l.length ≤ n →
    initSne (chainUnits l) := by
  induction n with
  | zero =>
    intro l hl
    have : l = [] := List.length_eq_zero.mp (by omega)
    subst this
    simp [chainUnits, chainUnitsF_nil, initSne]
  | succ n ih =>
    intro l hl
    rw [chainUnits_eq]
    by_cases h1 : (wOf l).isEmpty
    · rw [if_pos h1]; exact trivial
    · rw [if_neg h1]
      by_cases h2 : (sOf l).isEmpty
      · rw [if_pos h2]; exact trivial
      · rw [if_neg h2]
        by_cases h3 : isLowerAZ ((restOf l).headD ' ')
        · rw [if_pos h3]
          have hlt := restOf_lt (l := l) (by
            cases hw : (wOf l).isEmpty
            · rfl
            · exact absurd hw h1)
          have hih := ih (restOf l) (by omega)
          have hs2 : sOf l ≠ [] := by
            intro hx; rw [hx] at h2; exact h2 rfl
          cases hc : chainUnits (restOf l) with
          | nil => exact trivial
          | cons v rest =>
            rw [hc] at hih
            exact ⟨hs2, hih⟩
        · rw [if_neg h3]; exact trivial

theorem cLen_le_unitsLen (j : Nat) (us : List (List Char × List Char)) :
    cLen j us ≤ unitsLen us := by
  induction us generalizing j with
  | nil => cases j <;> simp [cLen, unitsLen]
  | cons u rest ih =>
    match j with
    | 0 => simp [cLen, unitsLen]
    | 1 =>
      show u.1.length ≤ u.1.length + u.2.length + unitsLen rest
      omega
    | j + 2 =>
      show u.1.length + u.2.length + cLen (j + 1) rest ≤
        u.1.length + u.2.length + unitsLen rest
      have := ih (j + 1)
      omega

theorem cLen_pos {j : Nat} {us : List (List Char × List Char)}
    (h1 : 1 ≤ j) (h2 : us ≠ []) (h3 : ∀ u ∈ us, u.1 ≠ []) : 1 ≤ cLen j us := by
  match j, us with
  | _, [] => exact absurd rfl h2
  | 1, u :: rest =>
    have := h3 u (by simp)
    show 1 ≤ u.1.length
    cases hx : u.1 with
    | nil => exact absurd hx this
    | cons a as => simp [hx]
  | j + 2, u :: rest =>
    have := h3 u (by simp)
    show 1 ≤ u.1.length + u.2.length + cLen (j + 1) rest
    cases hx : u.1 with
    | nil => exact absurd hx this
    | cons a as => simp [hx]; omega

theorem unitsLen_flat (us : List (List Char × List Char)) :
    unitsLen us = (unitsFlat us).length := by
  induction us with
  | nil => rfl
  | cons u rest ih => simp [unitsLen, unitsFlat] at *; omega

theorem m3At_true (l : List Char) : m3At true l = none := rfl

theorem m3At_cases {pw : Bool} {l : List Char} {n : Nat}
    (h : m3At pw l = some n) :
    pw = false ∧ 12 ≤ (chainUnits l).length ∧
    ∃ j, 1 ≤ j ∧ n = cLen j (chainUnits l) := by
  unfold m3At at h
  by_cases hpw : pw
  · rw [if_pos (by simp [hpw])] at h
    exact absurd h (by simp)
  · rw [if_neg (by simp [hpw])] at h
    by_cases hm : (chainUnits l).length < 12
    · rw [if_pos hm] at h
      exact absurd h (by simp)
    · rw [if_neg hm] at h
      refine ⟨by simpa using hpw, by omega, ?_⟩
      by_cases h25 : 25 ≤ (chainUnits l).length
      · rw [if_pos h25] at h
        exact ⟨24, by omega, (Option.some.inj h).symm⟩
      · rw [if_neg h25] at h
        by_cases htl : tailBd l (chainUnits l)
        · rw [if_pos htl] at h
          exact ⟨(chainUnits l).length, by omega, (Option.some.inj h).symm⟩
        · rw [if_neg htl] at h
          by_cases h12 : (chainUnits l).length = 12
          · rw [if_pos h12] at h
            exact absurd h (by simp)
          · rw [if_neg h12] at h
            exact ⟨(chainUnits l).length - 1, by omega, (Option.some.inj h).symm⟩

theorem m3At_bounds {pw : Bool} {l : List Char} {n : Nat}
    (h : m3At pw l = some n) : 1 ≤ n ∧ n ≤ l.length := by
  obtain ⟨hpw, hm, j, hj, hn⟩ := m3At_cases h
  have hinv := chainUnits_inv l.length l (le_refl _)
  have hne : chainUnits l ≠ [] := by
    intro hx; rw [hx] at hm; simp at hm
  constructor
  · rw [hn]
    exact cLen_pos hj hne (fun u hu => (hinv u hu).1)
  · obtain ⟨rem, hrem⟩ := chainUnits_flat l.length l (le_refl _)
    have h1 : cLen j (chainUnits l) ≤ unitsLen (chainUnits l) := cLen_le_unitsLen _ _
    have h2 := unitsLen_flat (chainUnits l)
    have h3 : (unitsFlat (chainUnits l)).length ≤ l.length := by
      have hc := congrArg List.length hrem
      simp only [List.length_append] at hc
      omega
    omega

theorem m3At_notlower {c : Char} {t : List Char} (hc : isLowerAZ c = false)
    (pw : Bool) : m3At pw (c :: t) = none := by
  have hchain : chainUnits (c :: t) = [] := by
    rw [chainUnits_eq]
    rw [if_pos (by
      show (wOf (c :: t)).isEmpty = true
      unfold wOf
      rw [twHeadNeg isLowerAZ c t hc]
      rfl)]
  unfold m3At
  rw [hchain]
  cases pw <;> simp

/-! ### Fuel irrelevance and step lemmas for pass 3 -/

theorem wipe3F_succ_some {f : Nat} {pw : Bool} {c : Char} {t : List Char}
    {n : Nat} (h : m3At pw (c :: t) = some n) :
    wipe3F (f + 1) pw (c :: t) = mnTag ++ wipe3F f true ((c :: t).drop n) := by
  show (match m3At pw (c :: t) with
        | some n => mnTag ++ wipe3F f true ((c :: t).drop n)
        | none => c :: wipe3F f (isWordCh c) t) = _
  rw [h]

theorem wipe3F_succ_none {f : Nat} {pw : Bool} {c : Char} {t : List Char}
    (h : m3At pw (c :: t) = none) :
    wipe3F (f + 1) pw (c :: t) = c :: wipe3F f (isWordCh c) t := by
  show (match m3At pw (c :: t) with
        | some n => mnTag ++ wipe3F f true ((c :: t).drop n)
        | none => c :: wipe3F f (isWordCh c) t) = _
  rw [h]

theorem wipe3F_fuel (f : Nat) : ∀ (g : Nat) (pw : Bool) (l : List Char),
    l.length ≤ f → l.length ≤ g → wipe3F f pw l = wipe3F g pw l := by
  induction f using Nat.strong_induction_on with
  | _ f ih =>
    intro g pw l hf hg
    match f, l with
    | 0, l =>
      have : l = [] := List.length_eq_zero.mp (by omega)
      subst this
      cases g <;> rfl
    | f + 1, [] => cases g <;> rfl
    | f + 1, c :: t =>
      match g with
      | 0 => simp at hg
      | g + 1 =>
        simp only [List.length_cons] at hf hg
        cases hm : m3At pw (c :: t) with
        | some n =>
          have hb := m3At_bounds hm
          simp only [List.length_cons] at hb
          rw [wipe3F_succ_some hm, wipe3F_succ_some hm]
          have hd : ((c :: t).drop n).length ≤ f := by
            simp only [List.length_drop, List.length_cons]
            omega
          have hd2 : ((c :: t).drop n).length ≤ g := by
            simp only [List.length_drop, List.length_cons]
            omega
          rw [ih f (by omega) g true _ hd hd2]
        | none =>
          rw [wipe3F_succ_none hm, wipe3F_succ_none hm]
          rw [ih f (by omega) g (isWordCh c) t (by omega) (by omega)]

/-- Pass 3 in an arbitrary previous-character context. -/
def wipe3C (pw : Bool) (l : List Char) : List Char := wipe3F l.length pw l

theorem wipe3_eq_wipe3C (l : List Char) : wipe3 l = wipe3C false l := rfl

theorem wipe3C_nil (pw : Bool) : wipe3C pw [] = [] := rfl

theorem wipe3C_match {pw : Bool} {l : List Char} {n : Nat}
    (h : m3At pw l = some n) :
    wipe3C pw l = mnTag ++ wipe3C true (l.drop n) := by
  have hb := m3At_bounds h
  match l with
  | [] => simp at hb; omega
  | c :: t =>
    show wipe3F (t.length + 1) pw (c :: t) = _
    rw [wipe3F_succ_some h]
    unfold wipe3C
    rw [wipe3F_fuel t.length ((c :: t).drop n).length true ((c :: t).drop n)
      (by simp only [List.length_drop, List.length_cons]
          simp only [List.length_cons] at hb
          omega)
      (le_refl _)]

theorem wipe3C_nomatch {pw : Bool} {c : Char} {t : List Char}
    (h : m3At pw (c :: t) = none) :
    wipe3C pw (c :: t) = c :: wipe3C (isWordCh c) t := by
  show wipe3F (t.length + 1) pw (c :: t) = _
  rw [wipe3F_succ_none h]
  rfl

/-! ### Identity lemmas: a pass leaves pattern-free text unchanged -/

theorem wipe1_id {l : List Char} (h : hasPk l = false) : wipe1 l = l := by
  induction l with
  | nil => rfl
  | cons c t ih =>
    obtain ⟨h1, h2⟩ := hasPk_cons_false h
    rw [wipe1_nomatch h1, ih h2]

theorem wipe2_id {l : List Char} (h : hasAddr l = false) : wipe2 l = l := by
  induction l with
  | nil => rfl
  | cons c t ih =>
    obtain ⟨h1, h2⟩ := hasAddr_cons_false h
    rw [wipe2_nomatch h1, ih h2]

theorem m1At_head_s {c : Char} {t : List Char} (h : m1At (c :: t) ≠ none) :
    c = 's' := by
  unfold m1At at h
  by_cases hs : startsW pkTok (c :: t)
  · have : pkTok = 's' :: ['u', 'i', 'p', 'r', 'i', 'v', 'k', 'e', 'y'] := rfl
    rw [this] at hs
    simp only [startsW, Bool.and_eq_true, decide_eq_true_eq] at hs
    exact hs.1.symm
  · rw [if_neg hs] at h
    exact absurd rfl h

theorem m2At_head_0 {c : Char} {t : List Char} (h : m2At (c :: t) ≠ none) :
    c = '0' := by
  match t with
  | [] => simp [m2At] at h
  | c1 :: r =>
    have h' : (if c = '0' && c1 = 'x' && (r.take 64).length = 64 &&
          (r.take 64).all isHexCh
        then some (r.take 64) else (none : Option (List Char))) ≠ none := h
    by_cases hc : c = '0' && c1 = 'x' && (r.take 64).length = 64 &&
        (r.take 64).all isHexCh
    · simp only [Bool.and_eq_true, decide_eq_true_eq] at hc
      exact hc.1.1.1
    · rw [if_neg hc] at h'
      exact absurd rfl h'

theorem hasPk_of_noS {l : List Char} (h : ∀ c ∈ l, c ≠ 's') :
    hasPk l = false := by
  induction l with
  | nil => rfl
  | cons c t ih =>
    unfold hasPk
    have h1 : m1At (c :: t) = none := by
      by_contra hx
      exact h c (by simp) (m1At_head_s hx)
    rw [h1]
    simp only [Option.isSome_none, Bool.false_or]
    exact ih (fun c hc => h c (by simp [hc]))

theorem hasAddr_of_no0 {l : List Char} (h : ∀ c ∈ l, c ≠ '0') :
    hasAddr l = false := by
  induction l with
  | nil => rfl
  | cons c t ih =>
    unfold hasAddr
    have h1 : m2At (c :: t) = none := by
      by_contra hx
      exact h c (by simp) (m2At_head_0 hx)
    rw [h1]
    simp only [Option.isSome_none, Bool.false_or]
    exact ih (fun c hc => h c (by simp [hc]))

/-! ### Whitespace counting: a mnemonic match needs 11 whitespace characters -/

theorem countP_all_true {p : Char → Bool} {l : List Char}
    (h : ∀ c ∈ l, p c = true) : l.countP p = l.length :=
  List.countP_eq_length.mpr (fun c hc => h c hc)

theorem wsSum (us : List (List Char × List Char)) (hsne : initSne us)
    (hws : ∀ u ∈ us, ∀ c ∈ u.2, isWsCh c = true) :
    ∀ k, k + 1 ≤ us.length → k ≤ (unitsFlat us).countP isWsCh := by
  induction us with
  | nil => intro k hk; simp at hk
  | cons u rest ih =>
    intro k hk
    match k with
    | 0 => omega
    | k + 1 =>
      have hrest : rest ≠ [] := by
        intro hx
        rw [hx] at hk
        simp at hk
      match rest with
      | [] => exact absurd rfl hrest
      | v :: vs =>
        obtain ⟨hu2, hsne2⟩ := hsne
        have hcount : (unitsFlat (u :: v :: vs)).countP isWsCh =
            u.1.countP isWsCh + u.2.countP isWsCh +
              (unitsFlat (v :: vs)).countP isWsCh := by
          show ((u.1 ++ u.2 ++ unitsFlat (v :: vs))).countP isWsCh = _
          rw [List.countP_append, List.countP_append]
        have hws2 : u.2.countP isWsCh = u.2.length :=
          countP_all_true (fun c hc => hws u (by simp) c hc)
        have h1 : 1 ≤ u.2.length := by
          cases hx : u.2 with
          | nil => exact absurd hx hu2
          | cons a as => simp [hx]
        have hih := ih hsne2 (fun w hw c hc => hws w (by simp [hw]) c hc) k
          (by simp at hk ⊢; omega)
        omega

theorem m3At_some_ws {pw : Bool} {l : List Char} {n : Nat}
    (h : m3At pw l = some n) : 11 ≤ l.countP isWsCh := by
  obtain ⟨hpw, hm, _⟩ := m3At_cases h
  have hinv := chainUnits_inv l.length l (le_refl _)
  have hsne := chainUnits_initSne l.length l (le_refl _)
  obtain ⟨rem, hrem⟩ := chainUnits_flat l.length l (le_refl _)
  have hsum := wsSum (chainUnits l) hsne
    (fun u hu c hc => (hinv u hu).2.2 c hc) 11 (by omega)
  have : l.countP isWsCh = (unitsFlat (chainUnits l)).countP isWsCh +
      rem.countP isWsCh := by
    conv_lhs => rw [hrem]
    rw [List.countP_append]
  omega

theorem wipe3C_id_ws {l : List Char} (h : l.countP isWsCh < 11) (pw : Bool) :
    wipe3C pw l = l := by
  induction l generalizing pw with
  | nil => rfl
  | cons c t ih =>
    have h1 : m3At pw (c :: t) = none := by
      cases hm : m3At pw (c :: t) with
      | none => rfl
      | some n =>
        have := m3At_some_ws hm
        omega
    rw [wipe3C_nomatch h1]
    have h2 : t.countP isWsCh < 11 := by
      rw [List.countP_cons] at h
      omega
    rw [ih h2]

/-! ### Character-class facts -/

theorem hexNotS {c : Char} (h : isHexCh c = true) : c ≠ 's' := by
  intro hc
  subst hc
  exact absurd h (by decide)

theorem hexNotWs {c : Char} (h : isHexCh c = true) : isWsCh c = false := by
  cases hw : isWsCh c
  · rfl
  · exfalso
    simp only [isWsCh, Bool.or_eq_true, decide_eq_true_eq] at hw
    rcases hw with ((rfl | rfl) | rfl) | rfl <;> exact absurd h (by decide)

theorem wsNotLower {c : Char} (h : isWsCh c = true) : isLowerAZ c = false := by
  simp only [isWsCh, Bool.or_eq_true, decide_eq_true_eq] at h
  rcases h with ((rfl | rfl) | rfl) | rfl <;> decide

theorem lowerNotWs {c : Char} (h : isLowerAZ c = true) : isWsCh c = false := by
  cases hw : isWsCh c
  · rfl
  · rw [wsNotLower hw] at h
    exact absurd h (by simp)

theorem lowerAlnum {c : Char} (h : isLowerAZ c = true) : isAlnumAscii c = true := by
  unfold isAlnumAscii
  rw [h]
  rfl

theorem lowerWord {c : Char} (h : isLowerAZ c = true) : isWordCh c = true := by
  unfold isWordCh
  rw [lowerAlnum h]
  rfl

theorem wsNotWord {c : Char} (h : isWsCh c = true) : isWordCh c = false := by
  simp only [isWsCh, Bool.or_eq_true, decide_eq_true_eq] at h
  rcases h with ((rfl | rfl) | rfl) | rfl <;> decide

/-! ## Claim theorems: sanitizer functional properties -/

/-- C5: on a string that is exactly the private-key prefix followed by one or
more alphanumeric characters, `sanitize_output` produces exactly the fixed
4-character mask — no character of the token survives. -/
theorem sanitize_pk_token_masked (body : List Char) (hne : body ≠ [])
    (hal : ∀ c ∈ body, isAlnumAscii c = true) :
    sanitize_output ⟨pkTok ++ body⟩ = "****" := by
  unfold sanitize_output
  have hdata : (⟨pkTok ++ body⟩ : String).data = pkTok ++ body := rfl
  rw [hdata]
  have hm : m1At (pkTok ++ body) = some (10 + body.length) := by
    unfold m1At
    rw [if_pos (startsW_of_append pkTok body)]
    have hd : (pkTok ++ body).drop 10 = body := by
      have h10 : pkTok.length = 10 := rfl
      rw [← h10, List.drop_left]
    rw [hd, twAll isAlnumAscii body hal]
    rw [if_neg (by
      cases hb : body with
      | nil => exact absurd hb hne
      | cons a as => simp [hb])]
  show (⟨wipe3 (wipe2 (wipe1 (pkTok ++ body)))⟩ : String) = "****"
  rw [wipe1_match hm]
  have hd2 : (pkTok ++ body).drop (10 + body.length) = [] := by
    apply List.drop_eq_nil_of_le
    simp [pkTok]
    omega
  rw [hd2, wipe1_nil]
  decide

/-- C5 witness: the token `suiprivkey1abc` sanitizes to exactly `****`. -/
theorem sanitize_pk_token_masked_witness :
    sanitize_output "suiprivkey1abc" = "****" := by
  have he : ("suiprivkey1abc" : String) = ⟨pkTok ++ "1abc".data⟩ := by decide
  rw [he]
  exact sanitize_pk_token_masked "1abc".data (by decide) (by decide)

/-- C6: on `0x` followed by exactly 64 hex characters (either case),
`sanitize_output` returns `0x`, the first four hex characters, `...`, and the
last four hex characters. -/
theorem sanitize_full_address_masked (h64 : List Char) (hlen : h64.length = 64)
    (hhex : ∀ c ∈ h64, isHexCh c = true) :
    sanitize_output ⟨'0' :: 'x' :: h64⟩ =
      ⟨'0' :: 'x' :: (h64.take 4 ++ '.' :: '.' :: '.' :: h64.drop 60)⟩ := by
  unfold sanitize_output
  have hdata : (⟨'0' :: 'x' :: h64⟩ : String).data = '0' :: 'x' :: h64 := rfl
  rw [hdata]
  have h1 : wipe1 ('0' :: 'x' :: h64) = '0' :: 'x' :: h64 := by
    apply wipe1_id
    apply hasPk_of_noS
    intro c hc
    rcases List.mem_cons.mp hc with rfl | hc2
    · decide
    · rcases List.mem_cons.mp hc2 with rfl | hc3
      · decide
      · exact hexNotS (hhex c hc3)
  rw [h1]
  have htake : h64.take 64 = h64 := by
    rw [← hlen]
    exact List.take_length h64
  have hm : m2At ('0' :: 'x' :: h64) = some h64 := by
    show (if '0' = '0' && 'x' = 'x' && (h64.take 64).length = 64 &&
        (h64.take 64).all isHexCh then some (h64.take 64) else none) = some h64
    rw [htake]
    rw [if_pos (by
      simp only [Bool.and_eq_true, decide_eq_true_eq]
      exact ⟨⟨⟨by trivial, by trivial⟩, hlen⟩, List.all_eq_true.mpr hhex⟩)]
  rw [wipe2_match hm]
  have hd : ('0' :: 'x' :: h64).drop 66 = [] := by
    apply List.drop_eq_nil_of_le
    simp [hlen]
  rw [hd, wipe2_nil, List.append_nil]
  have hws : (maskRep h64).countP isWsCh < 11 := by
    have : (maskRep h64).countP isWsCh = 0 := by
      apply List.countP_eq_zero.mpr
      intro c hc
      unfold maskRep at hc
      rcases List.mem_cons.mp hc with rfl | hc2
      · decide
      · rcases List.mem_cons.mp hc2 with rfl | hc3
        · decide
        · rcases List.mem_append.mp hc3 with hc4 | hc5
          · have : c ∈ h64 := List.take_subset 4 h64 hc4
            simp [hexNotWs (hhex c this)]
          · rcases List.mem_cons.mp hc5 with rfl | hc6
            · decide
            · rcases List.mem_cons.mp hc6 with rfl | hc7
              · decide
              · rcases List.mem_cons.mp hc7 with rfl | hc8
                · decide
                · have : c ∈ h64 := List.drop_subset 60 h64 hc8
                  simp [hexNotWs (hhex c this)]
    omega
  show (⟨wipe3 (maskRep h64)⟩ : String) = _
  rw [wipe3_eq_wipe3C, wipe3C_id_ws hws]
  rfl

/-- C6 witness: a concrete all-`a` address is partially masked. -/
theorem sanitize_full_address_masked_witness :
    sanitize_output ⟨'0' :: 'x' :: List.replicate 64 'a'⟩ =
      "0xaaaa...aaaa" := by
  have h := sanitize_full_address_masked (List.replicate 64 'a')
    (by decide) (by decide)
  rw [h]
  decide

theorem m2At_none_head {c : Char} {t : List Char} (h : c ≠ '0') :
    m2At (c :: t) = none := by
  cases hm : m2At (c :: t) with
  | none => rfl
  | some h64 => exact absurd (m2At_head_0 (t := t) (by simp [hm])) h

theorem m1At_none_head {c : Char} {t : List Char} (h : c ≠ 's') :
    m1At (c :: t) = none := by
  cases hm : m1At (c :: t) with
  | none => rfl
  | some n => exact absurd (m1At_head_s (t := t) (by simp [hm])) h

theorem wipe2_0x (h64 : List Char) (hlen : h64.length = 64)
    (hhex : ∀ c ∈ h64, isHexCh c = true) :
    wipe2 ('0' :: 'x' :: h64) = maskRep h64 := by
  have htake : h64.take 64 = h64 := by
    rw [← hlen]
    exact List.take_length h64
  have hm : m2At ('0' :: 'x' :: h64) = some h64 := by
    show (if '0' = '0' && 'x' = 'x' && (h64.take 64).length = 64 &&
        (h64.take 64).all isHexCh then some (h64.take 64) else none) = some h64
    rw [htake]
    rw [if_pos (by
      simp only [Bool.and_eq_true, decide_eq_true_eq]
      exact ⟨⟨⟨by trivial, by trivial⟩, hlen⟩, List.all_eq_true.mpr hhex⟩)]
  rw [wipe2_match hm]
  have hd : ('0' :: 'x' :: h64).drop 66 = [] := by
    apply List.drop_eq_nil_of_le
    simp [hlen]
  rw [hd, wipe2_nil, List.append_nil]

theorem maskRep_ws0 (h64 : List Char) (hhex : ∀ c ∈ h64, isHexCh c = true) :
    (maskRep h64).countP isWsCh = 0 := by
  apply List.countP_eq_zero.mpr
  intro c hc
  unfold maskRep at hc
  rcases List.mem_cons.mp hc with rfl | hc2
  · decide
  · rcases List.mem_cons.mp hc2 with rfl | hc3
    · decide
    · rcases List.mem_append.mp hc3 with hc4 | hc5
      · have : c ∈ h64 := List.take_subset 4 h64 hc4
        simp [hexNotWs (hhex c this)]
      · rcases List.mem_cons.mp hc5 with rfl | hc6
        · decide
        · rcases List.mem_cons.mp hc6 with rfl | hc7
          · decide
          · rcases List.mem_cons.mp hc7 with rfl | hc8
            · decide
            · have : c ∈ h64 := List.drop_subset 60 h64 hc8
              simp [hexNotWs (hhex c this)]

/-! ### Word-run structure for the mnemonic rule -/

/-- A whitespace-separated word run: the pairs are (word, separator), and the
final word closes the run. -/
def mkRun (ps : List (List Char × List Char)) (wl : List Char) : List Char :=
  ps.foldr (fun u a => u.1 ++ u.2 ++ a) wl

/-- Well-formed run pairs: nonempty lowercase words, nonempty whitespace
separators. -/
def goodPairs (ps : List (List Char × List Char)) : Prop :=
  ∀ u ∈ ps, u.1 ≠ [] ∧ (∀ c ∈ u.1, isLowerAZ c = true) ∧ u.2 ≠ [] ∧
    (∀ c ∈ u.2, isWsCh c = true)

theorem mkRun_head_lower {ps : List (List Char × List Char)} {wl : List Char}
    (hps : goodPairs ps) (hwl : wl ≠ []) (hwlc : ∀ c ∈ wl, isLowerAZ c = true) :
    ∃ c cs, mkRun ps wl = c :: cs ∧ isLowerAZ c = true := by
  cases ps with
  | nil =>
    cases hw : wl with
    | nil => exact absurd hw hwl
    | cons c cs => exact ⟨c, cs, by simp [mkRun, hw], hwlc c (by simp [hw])⟩
  | cons u rest =>
    obtain ⟨h1, h2, _, _⟩ := hps u (by simp)
    cases hw : u.1 with
    | nil => exact absurd hw h1
    | cons c cs =>
      refine ⟨c, cs ++ u.2 ++ mkRun rest wl, ?_, h2 c (by simp [hw])⟩
      show u.1 ++ u.2 ++ mkRun rest wl = _
      rw [hw]
      simp

theorem chainUnits_base {wl : List Char} (hwl : wl ≠ [])
    (hwlc : ∀ c ∈ wl, isLowerAZ c = true) :
    chainUnits wl = [(wl, [])] := by
  rw [chainUnits_eq]
  have hwOf : wOf wl = wl := twAll isLowerAZ wl hwlc
  rw [if_neg (by
    rw [hwOf]
    cases hw : wl with
    | nil => exact absurd hw hwl
    | cons c cs => simp [hw])]
  have hsOf : sOf wl = [] := by
    unfold sOf
    rw [hwOf, List.drop_length]
    rfl
  rw [if_pos (by rw [hsOf]; rfl), hwOf]

theorem chainUnits_step {w s rest : List Char} (hw : w ≠ [])
    (hwc : ∀ c ∈ w, isLowerAZ c = true) (hs : s ≠ [])
    (hsc : ∀ c ∈ s, isWsCh c = true)
    (hrest : ∃ c cs, rest = c :: cs ∧ isLowerAZ c = true) :
    chainUnits (w ++ (s ++ rest)) = (w, s) :: chainUnits rest := by
  obtain ⟨c, cs, hr, hc⟩ := hrest
  have hwOf : wOf (w ++ (s ++ rest)) = w := by
    unfold wOf
    rw [twAppAll isLowerAZ w _ hwc]
    cases hsx : s with
    | nil => exact absurd hsx hs
    | cons a as =>
      rw [List.cons_append,
        twHeadNeg isLowerAZ a _ (wsNotLower (hsc a (by rw [hsx]; simp)))]
      simp
  have hsOf : sOf (w ++ (s ++ rest)) = s := by
    unfold sOf
    rw [hwOf, List.drop_left, twAppAll isWsCh s _ hsc]
    rw [hr, twHeadNeg isWsCh c _ (lowerNotWs hc)]
    simp
  have hrOf : restOf (w ++ (s ++ rest)) = rest := by
    unfold restOf
    rw [hwOf, hsOf, List.drop_left, List.drop_left]
  rw [chainUnits_eq]
  rw [if_neg (by
    rw [hwOf]
    cases hwx : w with
    | nil => exact absurd hwx hw
    | cons a as => simp [hwx])]
  rw [if_neg (by
    rw [hsOf]
    cases hsx : s with
    | nil => exact absurd hsx hs
    | cons a as => simp [hsx])]
  rw [if_pos (by rw [hrOf, hr]; simpa using hc)]
  rw [hwOf, hsOf, hrOf]

theorem chainUnits_run (ps : List (List Char × List Char)) (wl : List Char)
    (hps : goodPairs ps) (hwl : wl ≠ [])
    (hwlc : ∀ c ∈ wl, isLowerAZ c = true) :
    chainUnits (mkRun ps wl) = ps ++ [(wl, [])] := by
  induction ps with
  | nil => exact chainUnits_base hwl hwlc
  | cons u rest ih =>
    obtain ⟨h1, h2, h3, h4⟩ := hps u (by simp)
    have hrest : goodPairs rest := fun v hv => hps v (by simp [hv])
    have hshape : mkRun (u :: rest) wl = u.1 ++ (u.2 ++ mkRun rest wl) := by
      show u.1 ++ u.2 ++ mkRun rest wl = _
      simp
    rw [hshape, chainUnits_step h1 h2 h3 h4 (mkRun_head_lower hrest hwl hwlc),
      ih hrest]
    rfl

theorem unitsFlat_append (a b : List (List Char × List Char)) :
    unitsFlat (a ++ b) = unitsFlat a ++ unitsFlat b := by
  induction a with
  | nil => rfl
  | cons u rest ih =>
    show u.1 ++ u.2 ++ unitsFlat (rest ++ b) = (u.1 ++ u.2 ++ unitsFlat rest) ++ _
    rw [ih]
    simp

theorem mkRun_flat (ps : List (List Char × List Char)) (wl : List Char) :
    mkRun ps wl = unitsFlat ps ++ wl := by
  induction ps with
  | nil => rfl
  | cons u rest ih =>
    show u.1 ++ u.2 ++ mkRun rest wl = (u.1 ++ u.2 ++ unitsFlat rest) ++ wl
    rw [ih]
    simp

theorem cLen_full (ps : List (List Char × List Char)) (wl : List Char) :
    cLen (ps.length + 1) (ps ++ [(wl, [])]) = (mkRun ps wl).length := by
  induction ps with
  | nil =>
    show cLen 1 [(wl, [])] = wl.length
    rfl
  | cons u rest ih =>
    show u.1.length + u.2.length + cLen (rest.length + 1) (rest ++ [(wl, [])]) =
      (u.1 ++ u.2 ++ mkRun rest wl).length
    rw [ih]
    simp
    omega

theorem unitsLen_run (ps : List (List Char × List Char)) (wl : List Char) :
    unitsLen (ps ++ [(wl, [])]) = (mkRun ps wl).length := by
  induction ps with
  | nil =>
    show wl.length + 0 + 0 = wl.length
    omega
  | cons u rest ih =>
    show u.1.length + u.2.length + unitsLen (rest ++ [(wl, [])]) =
      (u.1 ++ u.2 ++ mkRun rest wl).length
    rw [ih]
    simp
    omega

theorem tailBd_run (ps : List (List Char × List Char)) (wl : List Char) :
    tailBd (mkRun ps wl) (ps ++ [(wl, [])]) = true := by
  unfold tailBd
  rw [List.getLast?_concat]
  show (if ([] : List Char).isEmpty then
      match (mkRun ps wl).drop (unitsLen (ps ++ [(wl, [])])) with
      | [] => true
      | c :: _ => !isWordCh c
    else true) = true
  rw [if_pos (show ([] : List Char).isEmpty = true from rfl), unitsLen_run]
  rw [List.drop_length]

theorem m3At_short {pw : Bool} {l : List Char}
    (h : (chainUnits l).length < 12) : m3At pw l = none := by
  unfold m3At
  by_cases hpw : pw
  · rw [if_pos (by simp [hpw])]
  · rw [if_neg (by simp [hpw]), if_pos h]

theorem m3At_run_full (ps : List (List Char × List Char)) (wl : List Char)
    (hps : goodPairs ps) (hwl : wl ≠ [])
    (hwlc : ∀ c ∈ wl, isLowerAZ c = true) (h12 : 12 ≤ ps.length + 1)
    (h24 : ps.length + 1 ≤ 24) :
    m3At false (mkRun ps wl) = some ((mkRun ps wl).length) := by
  have hch := chainUnits_run ps wl hps hwl hwlc
  have hlen : (chainUnits (mkRun ps wl)).length = ps.length + 1 := by
    rw [hch]
    simp
  unfold m3At
  rw [if_neg (by simp)]
  rw [if_neg (by rw [hlen]; omega)]
  rw [if_neg (by rw [hlen]; omega)]
  rw [if_pos (by rw [hch]; exact tailBd_run ps wl)]
  rw [hlen, hch, cLen_full]

theorem wipe3C_word (w : List Char) : ∀ (rest : List Char) (pw : Bool),
    w ≠ [] → (∀ c ∈ w, isLowerAZ c = true) → m3At pw (w ++ rest) = none →
    wipe3C pw (w ++ rest) = w ++ wipe3C true rest := by
  induction w with
  | nil => intro rest pw hne _ _; exact absurd rfl hne
  | cons c w' ih =>
    intro rest pw hne hlc h0
    rw [List.cons_append, wipe3C_nomatch (by rw [← List.cons_append]; exact h0)]
    have hcw : isWordCh c = true := lowerWord (hlc c (by simp))
    rw [hcw]
    cases hw' : w' with
    | nil => rfl
    | cons a as =>
      rw [← hw', ih rest true (by rw [hw']; simp)
        (fun x hx => hlc x (by simp [hx])) (m3At_true _)]
      rfl

theorem wipe3C_ws (s : List Char) : ∀ (rest : List Char) (pw : Bool),
    s ≠ [] → (∀ c ∈ s, isWsCh c = true) →
    wipe3C pw (s ++ rest) = s ++ wipe3C false rest := by
  induction s with
  | nil => intro rest pw hne _; exact absurd rfl hne
  | cons c s' ih =>
    intro rest pw hne hws
    have hcs : isWsCh c = true := hws c (by simp)
    rw [List.cons_append,
      wipe3C_nomatch (m3At_notlower (wsNotLower hcs) pw)]
    rw [wsNotWord hcs]
    cases hs' : s' with
    | nil => rfl
    | cons a as =>
      rw [← hs', ih rest false (by rw [hs']; simp)
        (fun x hx => hws x (by simp [hx]))]
      rfl

theorem wipe3C_final_word {wl : List Char} (hwl : wl ≠ [])
    (hwlc : ∀ c ∈ wl, isLowerAZ c = true) : wipe3C false wl = wl := by
  have h0 : m3At false (wl ++ []) = none := by
    rw [List.append_nil]
    apply m3At_short
    rw [chainUnits_base hwl hwlc]
    simp
  have := wipe3C_word wl [] false hwl hwlc h0
  rw [List.append_nil] at this
  rw [this, wipe3C_nil, List.append_nil]

theorem wipe3C_run_short (ps : List (List Char × List Char)) :
    ∀ (wl : List Char), goodPairs ps → wl ≠ [] →
    (∀ c ∈ wl, isLowerAZ c = true) → ps.length + 1 < 12 →
    wipe3C false (mkRun ps wl) = mkRun ps wl := by
  induction ps with
  | nil =>
    intro wl _ hwl hwlc _
    exact wipe3C_final_word hwl hwlc
  | cons u rest ih =>
    intro wl hps hwl hwlc hlen
    obtain ⟨h1, h2, h3, h4⟩ := hps u (by simp)
    have hrest : goodPairs rest := fun v hv => hps v (by simp [hv])
    have hshape : mkRun (u :: rest) wl = u.1 ++ (u.2 ++ mkRun rest wl) := by
      show u.1 ++ u.2 ++ mkRun rest wl = _
      simp
    have hshort : m3At false (u.1 ++ (u.2 ++ mkRun rest wl)) = none := by
      apply m3At_short
      rw [← hshape, chainUnits_run (u :: rest) wl hps hwl hwlc]
      simp at hlen ⊢
      omega
    rw [hshape, wipe3C_word u.1 _ false h1 h2 hshort,
      wipe3C_ws u.2 _ true h3 h4,
      ih wl hrest hwl hwlc (by simp at hlen ⊢; omega)]

theorem cLenUpto (qs : List (List Char × List Char))
    (u : List Char × List Char) (rest : List (List Char × List Char)) :
    cLen (qs.length + 1) (qs ++ u :: rest) = unitsLen qs + u.1.length := by
  induction qs with
  | nil =>
    show cLen 1 (u :: rest) = 0 + u.1.length
    show u.1.length = 0 + u.1.length
    omega
  | cons v qs' ih =>
    show v.1.length + v.2.length + cLen (qs'.length + 1) (qs' ++ u :: rest) =
      (v.1.length + v.2.length + unitsLen qs') + u.1.length
    rw [ih]
    omega

theorem m3At_run_25 (qs : List (List Char × List Char))
    (q : List Char × List Char) (wl : List Char)
    (hps : goodPairs (qs ++ [q])) (hwl : wl ≠ [])
    (hwlc : ∀ c ∈ wl, isLowerAZ c = true) (hq : qs.length = 23) :
    m3At false (mkRun (qs ++ [q]) wl) =
      some (unitsLen qs + q.1.length) := by
  have hch := chainUnits_run (qs ++ [q]) wl hps hwl hwlc
  have hlen : (chainUnits (mkRun (qs ++ [q]) wl)).length = 25 := by
    rw [hch]
    simp [hq]
  unfold m3At
  rw [if_neg (by simp)]
  rw [if_neg (by rw [hlen]; omega)]
  rw [if_pos (by rw [hlen])]
  rw [hch]
  have hassoc : qs ++ [q] ++ [(wl, [])] = qs ++ q :: [(wl, [])] := by simp
  rw [hassoc]
  rw [show (24 : Nat) = qs.length + 1 from by omega]
  rw [cLenUpto]

theorem drop_run_25 (qs : List (List Char × List Char))
    (q : List Char × List Char) (wl : List Char) :
    (mkRun (qs ++ [q]) wl).drop (unitsLen qs + q.1.length) = q.2 ++ wl := by
  rw [mkRun_flat, unitsFlat_append]
  have h1 : unitsFlat [q] = q.1 ++ q.2 := by
    show q.1 ++ q.2 ++ [] = q.1 ++ q.2
    simp
  rw [h1]
  have h2 : unitsFlat qs ++ (q.1 ++ q.2) ++ wl =
      (unitsFlat qs ++ q.1) ++ (q.2 ++ wl) := by simp
  rw [h2]
  have h3 : unitsLen qs + q.1.length = (unitsFlat qs ++ q.1).length := by
    rw [unitsLen_flat]
    simp
  rw [h3, List.drop_left]

theorem m1At_some_startsW {l : List Char} {n : Nat} (h : m1At l = some n) :
    startsW pkTok l = true := by
  unfold m1At at h
  by_cases hs : startsW pkTok l
  · exact hs
  · rw [if_neg hs] at h
    exact absurd h (by simp)

theorem hasPk_of_noOcc {l : List Char} (h : hasOcc pkTok l = false) :
    hasPk l = false := by
  induction l with
  | nil => rfl
  | cons c t ih =>
    unfold hasOcc at h
    rcases Bool.or_eq_false_iff.mp h with ⟨h1, h2⟩
    unfold hasPk
    have hm : m1At (c :: t) = none := by
      cases hm : m1At (c :: t) with
      | none => rfl
      | some n => rw [m1At_some_startsW hm] at h1; exact absurd h1 (by simp)
    rw [hm]
    simp only [Option.isSome_none, Bool.false_or]
    exact ih h2

theorem lowerNot0 {c : Char} (h : isLowerAZ c = true) : c ≠ '0' := by
  intro hc
  subst hc
  exact absurd h (by decide)

theorem wsNot0 {c : Char} (h : isWsCh c = true) : c ≠ '0' := by
  intro hc
  subst hc
  exact absurd h (by decide)

theorem runMem {ps : List (List Char × List Char)} {wl : List Char}
    (hps : goodPairs ps) (hwlc : ∀ c ∈ wl, isLowerAZ c = true) :
    ∀ c ∈ mkRun ps wl, isLowerAZ c = true ∨ isWsCh c = true := by
  induction ps with
  | nil => exact fun c hc => Or.inl (hwlc c hc)
  | cons u rest ih =>
    intro c hc
    obtain ⟨_, h2, _, h4⟩ := hps u (by simp)
    have hrest : goodPairs rest := fun v hv => hps v (by simp [hv])
    have hc' : c ∈ u.1 ++ u.2 ++ mkRun rest wl := hc
    rcases List.mem_append.mp hc' with hc2 | hc3
    · rcases List.mem_append.mp hc2 with hc4 | hc5
      · exact Or.inl (h2 c hc4)
      · exact Or.inr (h4 c hc5)
    · exact ih hrest c hc3

/-- C4 amended: on a whitespace-separated run of `n` nonempty lowercase words
that does not contain the private-key prefix: `12 ≤ n ≤ 24` replaces the whole
run with the tag; `n = 11` leaves it unmodified; `n = 25` replaces the first
24 words and keeps the final separator and word. -/
theorem sanitize_word_runs (ps : List (List Char × List Char)) (wl : List Char)
    (hps : goodPairs ps) (hwl : wl ≠ [])
    (hwlc : ∀ c ∈ wl, isLowerAZ c = true)
    (hnopk : hasOcc pkTok (mkRun ps wl) = false) :
    (12 ≤ ps.length + 1 → ps.length + 1 ≤ 24 →
      sanitize_output ⟨mkRun ps wl⟩ = "[MNEMONIC]") ∧
    (ps.length + 1 = 11 → sanitize_output ⟨mkRun ps wl⟩ = ⟨mkRun ps wl⟩) ∧
    (∀ qs q, ps = qs ++ [q] → qs.length = 23 →
      sanitize_output ⟨mkRun ps wl⟩ = ⟨mnTag ++ (q.2 ++ wl)⟩) := by
  have hw1 : wipe1 (mkRun ps wl) = mkRun ps wl :=
    wipe1_id (hasPk_of_noOcc hnopk)
  have hw2 : wipe2 (mkRun ps wl) = mkRun ps wl :=
    wipe2_id (hasAddr_of_no0 (fun c hc => by
      rcases runMem hps hwlc c hc with h | h
      · exact lowerNot0 h
      · exact wsNot0 h))
  have hsan : sanitize_output ⟨mkRun ps wl⟩ = ⟨wipe3C false (mkRun ps wl)⟩ := by
    unfold sanitize_output
    have hdata : (⟨mkRun ps wl⟩ : String).data = mkRun ps wl := rfl
    rw [hdata, hw1, hw2, wipe3_eq_wipe3C]
  refine ⟨?_, ?_, ?_⟩
  · intro h12 h24
    rw [hsan]
    rw [wipe3C_match (m3At_run_full ps wl hps hwl hwlc h12 h24)]
    rw [List.drop_length, wipe3C_nil, List.append_nil]
    decide
  · intro h11
    rw [hsan, wipe3C_run_short ps wl hps hwl hwlc (by omega)]
  · intro qs q hqs hq23
    subst hqs
    rw [hsan]
    rw [wipe3C_match (m3At_run_25 qs q wl hps hwl hwlc hq23)]
    rw [drop_run_25]
    obtain ⟨_, _, hq2, hq4⟩ := hps q (by simp)
    rw [wipe3C_ws q.2 wl true hq2 hq4, wipe3C_final_word hwl hwlc]

/-- C4 witness: a 12-word run collapses to the tag; an 11-word run is
unchanged. -/
theorem sanitize_word_runs_witness :
    sanitize_output "a b c d e f g h i j k l" = "[MNEMONIC]" ∧
    sanitize_output "a b c d e f g h i j k" = "a b c d e f g h i j k" := by
  constructor
  · have h := (sanitize_word_runs
      [(['a'], [' ']), (['b'], [' ']), (['c'], [' ']), (['d'], [' ']),
       (['e'], [' ']), (['f'], [' ']), (['g'], [' ']), (['h'], [' ']),
       (['i'], [' ']), (['j'], [' ']), (['k'], [' '])] ['l']
      (by intro u hu; fin_cases hu <;> exact ⟨by decide, by decide, by decide, by decide⟩)
      (by decide) (by decide) (by decide)).1 (by decide) (by decide)
    have he : ("a b c d e f g h i j k l" : String) =
        ⟨mkRun [(['a'], [' ']), (['b'], [' ']), (['c'], [' ']), (['d'], [' ']),
          (['e'], [' ']), (['f'], [' ']), (['g'], [' ']), (['h'], [' ']),
          (['i'], [' ']), (['j'], [' ']), (['k'], [' '])] ['l']⟩ := by decide
    rw [he]
    exact h
  · have h := (sanitize_word_runs
      [(['a'], [' ']), (['b'], [' ']), (['c'], [' ']), (['d'], [' ']),
       (['e'], [' ']), (['f'], [' ']), (['g'], [' ']), (['h'], [' ']),
       (['i'], [' ']), (['j'], [' '])] ['k']
      (by intro u hu; fin_cases hu <;> exact ⟨by decide, by decide, by decide, by decide⟩)
      (by decide) (by decide) (by decide)).2.1 (by decide)
    have he : ("a b c d e f g h i j k" : String) =
        ⟨mkRun [(['a'], [' ']), (['b'], [' ']), (['c'], [' ']), (['d'], [' ']),
          (['e'], [' ']), (['f'], [' ']), (['g'], [' ']), (['h'], [' ']),
          (['i'], [' ']), (['j'], [' '])] ['k']⟩ := by decide
    rw [he]
    rw [h]

/-! ### Prefix-transfer lemmas: analysing the output of pass 1

The replacement of pass 1 is `****`, and no pattern of the sanitizer can
contain a `*`; consequently every star-free prefix of a position in the
output of pass 1 transfers back to the input, which lets pattern-freeness
results cross the pass. -/

theorem startsW_cons {q c : Char} {p' l : List Char} :
    startsW (q :: p') (c :: l) = true ↔ q = c ∧ startsW p' l = true := by
  simp [startsW]

theorem startsW_trans_app {p q l : List Char}
    (h : startsW (p ++ q) l = true) : startsW p l = true := by
  induction p generalizing l with
  | nil => rfl
  | cons x xs ih =>
    cases l with
    | nil => simp [startsW] at h
    | cons c cs =>
      rw [List.cons_append, startsW_cons] at h
      exact startsW_cons.mpr ⟨h.1, ih h.2⟩

theorem startsW_take (k : Nat) (l : List Char) :
    startsW (l.take k) l = true := by
  induction l generalizing k with
  | nil => cases k <;> rfl
  | cons c t ih =>
    cases k with
    | zero => rfl
    | succ k => exact startsW_cons.mpr ⟨rfl, ih k⟩

theorem m1At_some_drop {l : List Char} {n : Nat} (h : m1At l = some n) :
    ∃ d r, l.drop 10 = d :: r ∧ isAlnumAscii d = true := by
  unfold m1At at h
  by_cases hs : startsW pkTok l
  · rw [if_pos hs] at h
    by_cases hb : ((l.drop 10).takeWhile isAlnumAscii).isEmpty
    · rw [if_pos hb] at h
      exact absurd h (by simp)
    · cases hd : l.drop 10 with
      | nil =>
        rw [hd] at hb
        exact absurd rfl hb
      | cons d r =>
        refine ⟨d, r, rfl, ?_⟩
        by_contra hal
        rw [hd, twHeadNeg isAlnumAscii d r (by
          cases hx : isAlnumAscii d
          · rfl
          · exact absurd hx hal)] at hb
        exact hb rfl
  · rw [if_neg hs] at h
    exact absurd h (by simp)

theorem startsW_ext {p l : List Char} {d : Char} {r : List Char}
    (h : startsW p l = true) (hd : l.drop p.length = d :: r) :
    startsW (p ++ [d]) l = true := by
  obtain ⟨r2, hr2⟩ := startsW_append h
  subst hr2
  rw [List.drop_left] at hd
  rw [hd]
  have hsh : p ++ d :: r = (p ++ [d]) ++ r := by simp
  rw [hsh]
  exact startsW_of_append (p ++ [d]) r

theorem alnumNotStar {c : Char} (h : isAlnumAscii c = true) : c ≠ '*' := by
  intro hc
  subst hc
  exact absurd h (by decide)

theorem hexNotStar {c : Char} (h : isHexCh c = true) : c ≠ '*' := by
  intro hc
  subst hc
  exact absurd h (by decide)

/-- Star-free prefixes of pass-1 output are prefixes of the input. -/
theorem wipe1_starfree (N : Nat) : ∀ (l p : List Char), l.length ≤ N →
    (∀ c ∈ p, c ≠ '*') → startsW p (wipe1 l) = true → startsW p l = true := by
  induction N with
  | zero =>
    intro l p hl _ hp
    have : l = [] := List.length_eq_zero.mp (by omega)
    subst this
    exact hp
  | succ N ih =>
    intro l p hl hstar hp
    cases l with
    | nil => exact hp
    | cons c t =>
      cases hm : m1At (c :: t) with
      | some n =>
        rw [wipe1_match hm] at hp
        cases p with
        | nil => rfl
        | cons q p' =>
          have := (startsW_cons.mp hp).1
          exact absurd this (hstar q (by simp))
      | none =>
        rw [wipe1_nomatch hm] at hp
        cases p with
        | nil => rfl
        | cons q p' =>
          obtain ⟨hq, hp'⟩ := startsW_cons.mp hp
          refine startsW_cons.mpr ⟨hq, ?_⟩
          exact ih t p' (by simp at hl; omega)
            (fun x hx => hstar x (by simp [hx])) hp'

theorem m1At_of_startsW_ext {l : List Char} {d : Char}
    (h : startsW (pkTok ++ [d]) l = true) (hd : isAlnumAscii d = true) :
    m1At l ≠ none := by
  obtain ⟨r, hr⟩ := startsW_append h
  subst hr
  have hs : startsW pkTok ((pkTok ++ [d]) ++ r) = true := startsW_trans_app (by
    rw [List.append_assoc]
    exact startsW_of_append pkTok ([d] ++ r))
  have hdrop : ((pkTok ++ [d]) ++ r).drop 10 = d :: r := by
    rw [List.append_assoc]
    have h10 : pkTok.length = 10 := rfl
    rw [← h10, List.drop_left]
    rfl
  unfold m1At
  rw [if_pos hs, hdrop]
  rw [List.takeWhile_cons_of_pos hd]
  simp

/-- Pass 1 leaves no private-key match in its own output. -/
theorem hasPk_wipe1 (N : Nat) : ∀ (l : List Char), l.length ≤ N →
    hasPk (wipe1 l) = false := by
  induction N with
  | zero =>
    intro l hl
    have : l = [] := List.length_eq_zero.mp (by omega)
    subst this
    rfl
  | succ N ih =>
    intro l hl
    cases l with
    | nil => rfl
    | cons c t =>
      cases hm : m1At (c :: t) with
      | some n =>
        rw [wipe1_match hm]
        have hb := m1At_bounds hm
        have hW := ih ((c :: t).drop n) (by
          simp only [List.length_drop, List.length_cons]
          simp only [List.length_cons] at hl hb
          omega)
        show hasPk ('*' :: '*' :: '*' :: '*' :: wipe1 ((c :: t).drop n)) = false
        have hstep : ∀ (x : List Char), hasPk ('*' :: x) = hasPk x := by
          intro x
          show ((m1At ('*' :: x)).isSome || hasPk x) = hasPk x
          rw [m1At_none_head (by decide)]
          simp
        rw [hstep, hstep, hstep, hstep]
        exact hW
      | none =>
        rw [wipe1_nomatch hm]
        have hW := ih t (by simp at hl; omega)
        unfold hasPk
        have hnone : m1At (c :: wipe1 t) = none := by
          cases hmm : m1At (c :: wipe1 t) with
          | none => rfl
          | some k =>
            exfalso
            obtain ⟨d, r, hdr, hal⟩ := m1At_some_drop hmm
            have hsw : startsW (pkTok ++ [d]) (c :: wipe1 t) = true := by
              apply startsW_ext (m1At_some_startsW hmm)
              show (c :: wipe1 t).drop pkTok.length = d :: r
              exact hdr
            have hc : c = 's' := by
              have := startsW_trans_app hsw
              have h2 : pkTok = 's' :: ['u', 'i', 'p', 'r', 'i', 'v', 'k', 'e', 'y'] := rfl
              rw [h2] at this
              exact (startsW_cons.mp this).1.symm
            subst hc
            have hsw2 : startsW (['u', 'i', 'p', 'r', 'i', 'v', 'k', 'e', 'y'] ++ [d])
                (wipe1 t) = true := by
              have h2 : pkTok ++ [d] =
                  's' :: (['u', 'i', 'p', 'r', 'i', 'v', 'k', 'e', 'y'] ++ [d]) := rfl
              rw [h2] at hsw
              exact (startsW_cons.mp hsw).2
            have htr : startsW (['u', 'i', 'p', 'r', 'i', 'v', 'k', 'e', 'y'] ++ [d])
                t = true := by
              apply wipe1_starfree t.length t _ (le_refl _) _ hsw2
              intro x hx
              rcases List.mem_append.mp hx with hx1 | hx2
              · fin_cases hx1 <;> decide
              · rw [List.mem_singleton.mp hx2]
                exact alnumNotStar hal
            have : m1At ('s' :: t) ≠ none := by
              apply m1At_of_startsW_ext _ hal
              have h2 : pkTok ++ [d] =
                  's' :: (['u', 'i', 'p', 'r', 'i', 'v', 'k', 'e', 'y'] ++ [d]) := rfl
              rw [h2]
              exact startsW_cons.mpr ⟨rfl, htr⟩
            exact this hm
        rw [hnone]
        simpa using hW

theorem hasAddr_drop (k : Nat) : ∀ (l : List Char), hasAddr l = false →
    hasAddr (l.drop k) = false := by
  induction k with
  | zero => intro l h; exact h
  | succ k ih =>
    intro l h
    cases l with
    | nil => rfl
    | cons c t =>
      show hasAddr (t.drop k) = false
      exact ih t (hasAddr_cons_false h).2

theorem m2At_some_decomp {l : List Char} {h64 : List Char}
    (h : m2At l = some h64) :
    ∃ r, l = '0' :: 'x' :: r ∧ h64 = r.take 64 := by
  match l with
  | [] => simp [m2At] at h
  | [c0] => simp [m2At] at h
  | c0 :: c1 :: r =>
    have h' : (if c0 = '0' && c1 = 'x' && (r.take 64).length = 64 &&
          (r.take 64).all isHexCh
        then some (r.take 64) else (none : Option (List Char))) = some h64 := h
    by_cases hc : c0 = '0' && c1 = 'x' && (r.take 64).length = 64 &&
        (r.take 64).all isHexCh
    · rw [if_pos hc] at h'
      have hparts := hc
      simp only [Bool.and_eq_true, decide_eq_true_eq] at hparts
      exact ⟨r, by rw [hparts.1.1.1, hparts.1.1.2], (Option.some.inj h').symm⟩
    · rw [if_neg hc] at h'
      exact absurd h' (by simp)

theorem m2At_of_startsW {t h64 : List Char}
    (hsw : startsW ('x' :: h64) t = true) (hlen : h64.length = 64)
    (hhex : (∀ c ∈ h64, isHexCh c = true)) :
    m2At ('0' :: t) ≠ none := by
  obtain ⟨r2, hr2⟩ := startsW_append hsw
  subst hr2
  show m2At ('0' :: 'x' :: (h64 ++ r2)) ≠ none
  have htake : (h64 ++ r2).take 64 = h64 := by
    rw [← hlen]
    exact List.take_left h64 r2
  have hcond : ('0' = '0' && 'x' = 'x' && ((h64 ++ r2).take 64).length = 64 &&
      ((h64 ++ r2).take 64).all isHexCh) = true := by
    rw [htake]
    simp only [Bool.and_eq_true, decide_eq_true_eq]
    exact ⟨⟨⟨by trivial, by trivial⟩, hlen⟩, List.all_eq_true.mpr hhex⟩
  show (if '0' = '0' && 'x' = 'x' && ((h64 ++ r2).take 64).length = 64 &&
      ((h64 ++ r2).take 64).all isHexCh
    then some ((h64 ++ r2).take 64) else (none : Option (List Char))) ≠ none
  rw [if_pos hcond]
  simp

/-- Pass 1 cannot create an address match. -/
theorem hasAddr_wipe1 (N : Nat) : ∀ (l : List Char), l.length ≤ N →
    hasAddr l = false → hasAddr (wipe1 l) = false := by
  induction N with
  | zero =>
    intro l hl _
    have : l = [] := List.length_eq_zero.mp (by omega)
    subst this
    rfl
  | succ N ih =>
    intro l hl ha
    cases l with
    | nil => rfl
    | cons c t =>
      obtain ⟨ha1, ha2⟩ := hasAddr_cons_false ha
      cases hm : m1At (c :: t) with
      | some n =>
        rw [wipe1_match hm]
        have hb := m1At_bounds hm
        have hW := ih ((c :: t).drop n) (by
          simp only [List.length_drop, List.length_cons]
          simp only [List.length_cons] at hl hb
          omega) (hasAddr_drop n (c :: t) ha)
        show hasAddr ('*' :: '*' :: '*' :: '*' :: wipe1 ((c :: t).drop n)) = false
        have hstep : ∀ (x : List Char), hasAddr ('*' :: x) = hasAddr x := by
          intro x
          show ((m2At ('*' :: x)).isSome || hasAddr x) = hasAddr x
          rw [m2At_none_head (by decide)]
          simp
        rw [hstep, hstep, hstep, hstep]
        exact hW
      | none =>
        rw [wipe1_nomatch hm]
        have hW := ih t (by simp at hl; omega) ha2
        show ((m2At (c :: wipe1 t)).isSome || hasAddr (wipe1 t)) = false
        have hnone : m2At (c :: wipe1 t) = none := by
          cases hmm : m2At (c :: wipe1 t) with
          | none => rfl
          | some h64 =>
            exfalso
            obtain ⟨r, hr, hh64⟩ := m2At_some_decomp hmm
            have hc0 : c = '0' := by
              have := congrArg (fun x => x.headD ' ') hr
              simpa using this
            have hbounds := m2At_bounds hmm
            have hwt : wipe1 t = 'x' :: r := by
              have := congrArg List.tail hr
              simpa using this
            have hsw : startsW ('x' :: h64) (wipe1 t) = true := by
              rw [hwt]
              refine startsW_cons.mpr ⟨rfl, ?_⟩
              rw [hh64]
              exact startsW_take 64 r
            have htr : startsW ('x' :: h64) t = true := by
              apply wipe1_starfree t.length t _ (le_refl _) _ hsw
              intro x hx
              rcases List.mem_cons.mp hx with rfl | hx2
              · decide
              · exact hexNotStar (hbounds.2.1 x hx2)
            have : m2At ('0' :: t) ≠ none :=
              m2At_of_startsW htr hbounds.1 hbounds.2.1
            rw [← hc0] at this
            exact this ha1
        rw [hnone]
        simpa using hW

theorem wipe1_ws_le (N : Nat) : ∀ (l : List Char), l.length ≤ N →
    (wipe1 l).countP isWsCh ≤ l.countP isWsCh := by
  induction N with
  | zero =>
    intro l hl
    have : l = [] := List.length_eq_zero.mp (by omega)
    subst this
    rw [wipe1_nil]
  | succ N ih =>
    intro l hl
    cases l with
    | nil => rw [wipe1_nil]
    | cons c t =>
      cases hm : m1At (c :: t) with
      | some n =>
        rw [wipe1_match hm]
        have hb := m1At_bounds hm
        have hW := ih ((c :: t).drop n) (by
          simp only [List.length_drop, List.length_cons]
          simp only [List.length_cons] at hl hb
          omega)
        have hmask : maskTok.countP isWsCh = 0 := by decide
        rw [List.countP_append, hmask]
        have hsplit : (c :: t).countP isWsCh =
            ((c :: t).take n).countP isWsCh + ((c :: t).drop n).countP isWsCh := by
          conv_lhs => rw [← List.take_append_drop n (c :: t)]
          rw [List.countP_append]
        omega
      | none =>
        rw [wipe1_nomatch hm]
        have hW := ih t (by simp at hl; omega)
        rw [List.countP_cons, List.countP_cons]
        omega

/-! ### Pass-3 self-freeness: towards idempotence without the whitespace bound

`noM3 pw l` says the mnemonic rule matches at no split of `l`, where the
`\b` context of each position is the word-character status of the preceding
character (`pw` at the very start). -/

/-- The `\b` context after scanning `a`, starting from context `pw`. -/
def ctxW (pw : Bool) (a : List Char) : Bool :=
  match a.getLast? with
  | none => pw
  | some c => isWordCh c

/-- No mnemonic match at any split of `l` under start context `pw`. -/
def noM3 (pw : Bool) (l : List Char) : Prop :=
  ∀ a b, l = a ++ b → m3At (ctxW pw a) b = none

theorem m3At_nil (pw : Bool) : m3At pw [] = none := by
  cases pw <;> rfl

theorem notWordNotLower {c : Char} (h : isWordCh c = false) :
    isLowerAZ c = false := by
  cases hl : isLowerAZ c
  · rfl
  · rw [lowerWord hl] at h
    exact absurd h (by simp)

theorem ctxW_nil (pw : Bool) : ctxW pw [] = pw := rfl

theorem ctxW_cons (pw : Bool) (c : Char) (a : List Char) :
    ctxW pw (c :: a) = ctxW (isWordCh c) a := by
  unfold ctxW
  cases a with
  | nil => rfl
  | cons x xs =>
    have h : ((x :: xs).getLast?).isSome := by
      rw [List.getLast?_isSome]
      simp
    obtain ⟨y, hy⟩ := Option.isSome_iff_exists.mp h
    rw [List.getLast?_cons_cons, hy]

theorem noM3_nil (pw : Bool) : noM3 pw [] := by
  intro a b hab
  have ha : a = [] := by
    cases a with
    | nil => rfl
    | cons x xs => simp at hab
  have hb : b = [] := by
    subst ha
    simpa using hab.symm
  subst hb
  exact m3At_nil _

theorem noM3_cons_intro {pw : Bool} {c : Char} {t : List Char}
    (h1 : m3At pw (c :: t) = none) (h2 : noM3 (isWordCh c) t) :
    noM3 pw (c :: t) := by
  intro a b hab
  cases a with
  | nil =>
    have : b = c :: t := by simpa using hab.symm
    subst this
    exact h1
  | cons x a' =>
    have hx : x = c ∧ t = a' ++ b := by
      rw [List.cons_append] at hab
      exact ⟨(List.cons.injEq _ _ _ _ ▸ hab).1.symm ▸ rfl, by
        have := hab
        simp at this
        exact this.2⟩
    obtain ⟨hxc, ht⟩ := hx
    subst hxc
    rw [ctxW_cons]
    exact h2 a' b ht

theorem noM3_cons_elim {pw : Bool} {c : Char} {t : List Char}
    (h : noM3 pw (c :: t)) : noM3 (isWordCh c) t := by
  intro a b hab
  rw [← ctxW_cons pw c a]
  exact h (c :: a) b (by rw [hab]; rfl)

theorem wipe3C_of_noM3 {l : List Char} : ∀ {pw : Bool}, noM3 pw l →
    wipe3C pw l = l := by
  induction l with
  | nil => intro pw _; rfl
  | cons c t ih =>
    intro pw h
    have h1 : m3At pw (c :: t) = none := by
      have := h [] (c :: t) rfl
      rwa [ctxW_nil] at this
    rw [wipe3C_nomatch h1]
    rw [ih (noM3_cons_elim h)]

theorem noM3_false_of_true {l : List Char} (h1 : m3At false l = none)
    (h2 : noM3 true l) : noM3 false l := by
  intro a b hab
  cases a with
  | nil =>
    have : b = l := by simpa using hab.symm
    subst this
    exact h1
  | cons x a' =>
    have hc : ctxW false (x :: a') = ctxW true (x :: a') := by
      rw [ctxW_cons, ctxW_cons]
    rw [hc]
    exact h2 (x :: a') b hab

theorem noM3_mnTag {W : List Char} (h : noM3 false W) (pw : Bool) :
    noM3 pw (mnTag ++ W) := by
  show noM3 pw ('[' :: 'M' :: 'N' :: 'E' :: 'M' :: 'O' :: 'N' :: 'I' :: 'C' :: ']' :: W)
  apply noM3_cons_intro (m3At_notlower (by decide) pw)
  apply noM3_cons_intro (m3At_notlower (by decide) _)
  apply noM3_cons_intro (m3At_notlower (by decide) _)
  apply noM3_cons_intro (m3At_notlower (by decide) _)
  apply noM3_cons_intro (m3At_notlower (by decide) _)
  apply noM3_cons_intro (m3At_notlower (by decide) _)
  apply noM3_cons_intro (m3At_notlower (by decide) _)
  apply noM3_cons_intro (m3At_notlower (by decide) _)
  apply noM3_cons_intro (m3At_notlower (by decide) _)
  apply noM3_cons_intro (m3At_notlower (by decide) _)
  show noM3 (isWordCh ']') W
  have : isWordCh ']' = false := by decide
  rw [this]
  exact h

/-! ### Where a mnemonic match ends: the character after the consumed span -/

theorem dropAt {α : Type} (A B : List α) {n : Nat} (h : n = A.length) :
    (A ++ B).drop n = B := by
  rw [h]
  exact List.drop_left A B

theorem listSplitAt {α : Type} : ∀ (j : Nat) (us : List α), j < us.length →
    ∃ pre u post, us = pre ++ u :: post ∧ pre.length = j := by
  intro j
  induction j with
  | zero =>
    intro us h
    cases us with
    | nil => simp at h
    | cons u post => exact ⟨[], u, post, rfl, rfl⟩
  | succ j ih =>
    intro us h
    cases us with
    | nil => simp at h
    | cons v us' =>
      obtain ⟨pre, u, post, h1, h2⟩ := ih us' (by simp at h; omega)
      exact ⟨v :: pre, u, post, by rw [List.cons_append, h1], by simp [h2]⟩

theorem initSne_split : ∀ (pre : List (List Char × List Char))
    (u : List Char × List Char) (post : List (List Char × List Char)),
    initSne (pre ++ u :: post) → post ≠ [] → u.2 ≠ [] := by
  intro pre
  induction pre with
  | nil =>
    intro u post h hpost
    cases post with
    | nil => exact absurd rfl hpost
    | cons v post' => exact h.1
  | cons x pre' ih =>
    intro u post h hpost
    apply ih u post _ hpost
    cases hpp : pre' ++ u :: post with
    | nil => simp at hpp
    | cons y ys =>
      rw [List.cons_append, hpp] at h
      exact h.2

/-- Refined case analysis: the selected word count is below the chain length,
or equals it with the trailing boundary satisfied. -/
theorem m3At_cases_j {pw : Bool} {l : List Char} {n : Nat}
    (h : m3At pw l = some n) :
    pw = false ∧ 12 ≤ (chainUnits l).length ∧
    ∃ j, 1 ≤ j ∧ n = cLen j (chainUnits l) ∧
      (j < (chainUnits l).length ∨
        (j = (chainUnits l).length ∧ tailBd l (chainUnits l) = true)) := by
  unfold m3At at h
  by_cases hpw : pw
  · rw [if_pos (by simp [hpw])] at h
    exact absurd h (by simp)
  · rw [if_neg (by simp [hpw])] at h
    by_cases hm : (chainUnits l).length < 12
    · rw [if_pos hm] at h
      exact absurd h (by simp)
    · rw [if_neg hm] at h
      refine ⟨by simpa using hpw, by omega, ?_⟩
      by_cases h25 : 25 ≤ (chainUnits l).length
      · rw [if_pos h25] at h
        exact ⟨24, by omega, (Option.some.inj h).symm, Or.inl (by omega)⟩
      · rw [if_neg h25] at h
        by_cases htl : tailBd l (chainUnits l)
        · rw [if_pos htl] at h
          exact ⟨(chainUnits l).length, by omega, (Option.some.inj h).symm,
            Or.inr ⟨rfl, htl⟩⟩
        · rw [if_neg htl] at h
          by_cases h12 : (chainUnits l).length = 12
          · rw [if_pos h12] at h
            exact absurd h (by simp)
          · rw [if_neg h12] at h
            exact ⟨(chainUnits l).length - 1, by omega, (Option.some.inj h).symm,
              Or.inl (by omega)⟩

/-- When the mnemonic rule fails at the head under start context `false`, the
chain is short, or exactly 12 units long without its trailing boundary. -/
theorem m3At_false_none_iff (l : List Char) :
    m3At false l = none ↔ ((chainUnits l).length < 12 ∨
      ((chainUnits l).length = 12 ∧ tailBd l (chainUnits l) = false)) := by
  unfold m3At
  rw [if_neg (by simp)]
  by_cases hm : (chainUnits l).length < 12
  · rw [if_pos hm]
    exact ⟨fun _ => Or.inl hm, fun _ => rfl⟩
  · rw [if_neg hm]
    by_cases h25 : 25 ≤ (chainUnits l).length
    · rw [if_pos h25]
      constructor
      · intro hx
        exact absurd hx (by simp)
      · intro hx
        exfalso
        rcases hx with h1 | ⟨h2, _⟩ <;> omega
    · rw [if_neg h25]
      by_cases htl : tailBd l (chainUnits l)
      · rw [if_pos htl]
        constructor
        · intro hx
          exact absurd hx (by simp)
        · intro hx
          exfalso
          rcases hx with h1 | ⟨h2, h3⟩
          · omega
          · exact absurd h3 (by simp [htl])
      · rw [if_neg htl]
        by_cases h12 : (chainUnits l).length = 12
        · rw [if_pos h12]
          refine ⟨fun _ => Or.inr ⟨h12, ?_⟩, fun _ => rfl⟩
          simpa using htl
        · rw [if_neg h12]
          constructor
          · intro hx
            exact absurd hx (by simp)
          · intro hx
            exfalso
            rcases hx with h1 | ⟨h2, _⟩ <;> omega

/-- Directly after the span consumed by a mnemonic match, the input is over
or continues with a non-lowercase character. -/
theorem m3At_drop_notlower {pw : Bool} {l : List Char} {n : Nat}
    (h : m3At pw l = some n) :
    l.drop n = [] ∨ ∃ c cs, l.drop n = c :: cs ∧ isLowerAZ c = false := by
  obtain ⟨hpw, hm, j, hj1, hn, hcase⟩ := m3At_cases_j h
  have hinv := chainUnits_inv l.length l (le_refl _)
  obtain ⟨rem, hrem⟩ := chainUnits_flat l.length l (le_refl _)
  have hsne := chainUnits_initSne l.length l (le_refl _)
  rcases hcase with hjlt | ⟨hjeq, htl⟩
  · obtain ⟨pre, u, post, hsplit, hpre⟩ :=
      listSplitAt (j - 1) (chainUnits l) (by omega)
    have hjpre : j = pre.length + 1 := by omega
    have hnval : n = unitsLen pre + u.1.length := by
      rw [hn, hjpre, hsplit]
      exact cLenUpto pre u post
    have hpost : post ≠ [] := by
      intro hp
      rw [hp] at hsplit
      have := congrArg List.length hsplit
      simp at this
      omega
    have hu2 : u.2 ≠ [] :=
      initSne_split pre u post (by rw [← hsplit]; exact hsne) hpost
    have hflat : unitsFlat (chainUnits l) =
        (unitsFlat pre ++ u.1) ++ (u.2 ++ unitsFlat post) := by
      rw [hsplit, unitsFlat_append]
      show unitsFlat pre ++ (u.1 ++ u.2 ++ unitsFlat post) = _
      simp [List.append_assoc]
    have hlen : n = (unitsFlat pre ++ u.1).length := by
      rw [hnval, List.length_append, unitsLen_flat]
    have hflat2 : l = (unitsFlat pre ++ u.1) ++ (u.2 ++ (unitsFlat post ++ rem)) := by
      rw [hrem, hflat]
      simp [List.append_assoc]
    have hldrop : l.drop n = u.2 ++ (unitsFlat post ++ rem) := by
      rw [hflat2]
      exact dropAt _ _ hlen
    obtain ⟨c, cs, hc⟩ : ∃ c cs, u.2 = c :: cs := by
      cases hx : u.2 with
      | nil => exact absurd hx hu2
      | cons c cs => exact ⟨c, cs, rfl⟩
    have humem : u ∈ chainUnits l := by rw [hsplit]; simp
    have hws : isWsCh c = true := (hinv u humem).2.2 c (by rw [hc]; simp)
    right
    exact ⟨c, cs ++ (unitsFlat post ++ rem), by rw [hldrop, hc, List.cons_append],
      wsNotLower hws⟩
  · have hne : chainUnits l ≠ [] := by
      intro hx
      rw [hx] at hm
      simp at hm
    obtain ⟨pre, u, hsplit⟩ : ∃ pre u, chainUnits l = pre ++ [u] := by
      rcases List.eq_nil_or_concat (chainUnits l) with h0 | ⟨pre, u, hpu⟩
      · exact absurd h0 hne
      · exact ⟨pre, u, by rw [hpu, List.concat_eq_append]⟩
    have hprelen : pre.length + 1 = (chainUnits l).length := by
      rw [hsplit]
      simp
    have hnval : n = unitsLen pre + u.1.length := by
      rw [hn, hjeq, ← hprelen, hsplit]
      exact cLenUpto pre u []
    obtain ⟨uw, u2⟩ := u
    by_cases hu2 : u2 = []
    · subst hu2
      have hflat : unitsFlat (chainUnits l) = unitsFlat pre ++ uw := by
        rw [hsplit, unitsFlat_append]
        show unitsFlat pre ++ (uw ++ [] ++ []) = _
        simp
    
      have hlen : n = unitsLen (chainUnits l) := by
        have h1 : unitsLen (chainUnits l) = unitsLen pre + uw.length := by
          rw [unitsLen_flat, hflat, List.length_append, ← unitsLen_flat]
        rw [hnval, h1]
      have hldrop : l.drop (unitsLen (chainUnits l)) = rem := by
        have h1 : l.drop (unitsLen (chainUnits l)) =
            (unitsFlat (chainUnits l) ++ rem).drop (unitsLen (chainUnits l)) :=
          congrArg (List.drop (unitsLen (chainUnits l))) hrem
        rw [h1]
        exact dropAt _ _ (unitsLen_flat _)
      have hgl : (chainUnits l).getLast? = some (uw, []) := by
        rw [hsplit]
        exact List.getLast?_concat _
      have htl' := htl
      unfold tailBd at htl'
      rw [hgl, hldrop] at htl'
      rw [hlen, hldrop]
      cases rem with
      | nil => exact Or.inl rfl
      | cons c cs =>
        right
        have h2 : (!isWordCh c) = true := htl'
        have hwd : isWordCh c = false := by
          cases hw : isWordCh c
          · rfl
          · rw [hw] at h2
            exact absurd h2 (by decide)
        exact ⟨c, cs, rfl, notWordNotLower hwd⟩
    · obtain ⟨c, cs, hc⟩ : ∃ c cs, u2 = c :: cs := by
        cases hx : u2 with
        | nil => exact absurd hx hu2
        | cons c cs => exact ⟨c, cs, rfl⟩
      have hflat : unitsFlat (chainUnits l) = (unitsFlat pre ++ uw) ++ u2 := by
        rw [hsplit, unitsFlat_append]
        show unitsFlat pre ++ (uw ++ u2 ++ []) = _
        simp [List.append_assoc]
      have hlen : n = (unitsFlat pre ++ uw).length := by
        rw [hnval, List.length_append, unitsLen_flat]
      have hflat2 : l = (unitsFlat pre ++ uw) ++ (u2 ++ rem) := by
        rw [hrem, hflat]
        simp [List.append_assoc]
      have hldrop : l.drop n = u2 ++ rem := by
        rw [hflat2]
        exact dropAt _ _ hlen
      have humem : (uw, u2) ∈ chainUnits l := by
        rw [hsplit]
        simp
      have hws : isWsCh c = true := (hinv (uw, u2) humem).2.2 c (by rw [hc]; simp)
      right
      exact ⟨c, cs ++ rem, by rw [hldrop, hc, List.cons_append], wsNotLower hws⟩

/-! ### Pass 3 cannot create a private-key or address match -/

theorem alnumNotBracket {c : Char} (h : isAlnumAscii c = true) : c ≠ '[' := by
  intro hc
  subst hc
  exact absurd h (by decide)

theorem hexNotBracket {c : Char} (h : isHexCh c = true) : c ≠ '[' := by
  intro hc
  subst hc
  exact absurd h (by decide)

/-- Any prefix of a pass-3 output that avoids `'['` is a prefix of the
input: the only characters pass 3 introduces start with the tag bracket. -/
theorem wipe3_bracketfree (N : Nat) : ∀ (l p : List Char) (pw : Bool),
    l.length ≤ N → (∀ c ∈ p, c ≠ '[') →
    startsW p (wipe3C pw l) = true → startsW p l = true := by
  induction N with
  | zero =>
    intro l p pw hl _ hp
    have : l = [] := List.length_eq_zero.mp (by omega)
    subst this
    exact hp
  | succ N ih =>
    intro l p pw hl hbr hp
    cases l with
    | nil => exact hp
    | cons c t =>
      cases hm : m3At pw (c :: t) with
      | some n =>
        rw [wipe3C_match hm] at hp
        cases p with
        | nil => rfl
        | cons q p' =>
          have hq := (startsW_cons.mp hp).1
          exact absurd hq (hbr q (by simp))
      | none =>
        rw [wipe3C_nomatch hm] at hp
        cases p with
        | nil => rfl
        | cons q p' =>
          obtain ⟨hq, hp'⟩ := startsW_cons.mp hp
          refine startsW_cons.mpr ⟨hq, ?_⟩
          exact ih t p' (isWordCh c) (by simp at hl; omega)
            (fun x hx => hbr x (by simp [hx])) hp'

theorem hasPk_drop (k : Nat) : ∀ (l : List Char), hasPk l = false →
    hasPk (l.drop k) = false := by
  induction k with
  | zero => intro l h; exact h
  | succ k ih =>
    intro l h
    cases l with
    | nil => rfl
    | cons c t =>
      show hasPk (t.drop k) = false
      exact ih t (hasPk_cons_false h).2

theorem hasPk_cons_ne {c : Char} (hc : c ≠ 's') (l : List Char) :
    hasPk (c :: l) = hasPk l := by
  show ((m1At (c :: l)).isSome || hasPk l) = hasPk l
  rw [m1At_none_head hc]
  simp

theorem hasAddr_cons_ne {c : Char} (hc : c ≠ '0') (l : List Char) :
    hasAddr (c :: l) = hasAddr l := by
  show ((m2At (c :: l)).isSome || hasAddr l) = hasAddr l
  rw [m2At_none_head hc]
  simp

theorem hasPk_mnTag (x : List Char) : hasPk (mnTag ++ x) = hasPk x := by
  show hasPk ('[' :: 'M' :: 'N' :: 'E' :: 'M' :: 'O' :: 'N' :: 'I' :: 'C' :: ']' :: x)
    = hasPk x
  rw [hasPk_cons_ne (show ('[' : Char) ≠ 's' from by decide),
    hasPk_cons_ne (show ('M' : Char) ≠ 's' from by decide),
    hasPk_cons_ne (show ('N' : Char) ≠ 's' from by decide),
    hasPk_cons_ne (show ('E' : Char) ≠ 's' from by decide),
    hasPk_cons_ne (show ('M' : Char) ≠ 's' from by decide),
    hasPk_cons_ne (show ('O' : Char) ≠ 's' from by decide),
    hasPk_cons_ne (show ('N' : Char) ≠ 's' from by decide),
    hasPk_cons_ne (show ('I' : Char) ≠ 's' from by decide),
    hasPk_cons_ne (show ('C' : Char) ≠ 's' from by decide),
    hasPk_cons_ne (show (']' : Char) ≠ 's' from by decide)]

theorem hasAddr_mnTag (x : List Char) : hasAddr (mnTag ++ x) = hasAddr x := by
  show hasAddr ('[' :: 'M' :: 'N' :: 'E' :: 'M' :: 'O' :: 'N' :: 'I' :: 'C' :: ']' :: x)
    = hasAddr x
  rw [hasAddr_cons_ne (show ('[' : Char) ≠ '0' from by decide),
    hasAddr_cons_ne (show ('M' : Char) ≠ '0' from by decide),
    hasAddr_cons_ne (show ('N' : Char) ≠ '0' from by decide),
    hasAddr_cons_ne (show ('E' : Char) ≠ '0' from by decide),
    hasAddr_cons_ne (show ('M' : Char) ≠ '0' from by decide),
    hasAddr_cons_ne (show ('O' : Char) ≠ '0' from by decide),
    hasAddr_cons_ne (show ('N' : Char) ≠ '0' from by decide),
    hasAddr_cons_ne (show ('I' : Char) ≠ '0' from by decide),
    hasAddr_cons_ne (show ('C' : Char) ≠ '0' from by decide),
    hasAddr_cons_ne (show (']' : Char) ≠ '0' from by decide)]

/-- Pass 3 preserves absence of private-key matches. -/
theorem hasPk_wipe3 (N : Nat) : ∀ (l : List Char) (pw : Bool), l.length ≤ N →
    hasPk l = false → hasPk (wipe3C pw l) = false := by
  induction N with
  | zero =>
    intro l pw hl _
    have : l = [] := List.length_eq_zero.mp (by omega)
    subst this
    rfl
  | succ N ih =>
    intro l pw hl h
    cases l with
    | nil => rfl
    | cons c t =>
      cases hm : m3At pw (c :: t) with
      | some n =>
        rw [wipe3C_match hm]
        have hb := m3At_bounds hm
        have hW := ih ((c :: t).drop n) true (by
          simp only [List.length_drop, List.length_cons]
          simp only [List.length_cons] at hl hb
          omega) (hasPk_drop n _ h)
        rw [hasPk_mnTag]
        exact hW
      | none =>
        rw [wipe3C_nomatch hm]
        have hW := ih t (isWordCh c) (by simp at hl; omega) (hasPk_cons_false h).2
        show ((m1At (c :: wipe3C (isWordCh c) t)).isSome ||
          hasPk (wipe3C (isWordCh c) t)) = false
        have hnone : m1At (c :: wipe3C (isWordCh c) t) = none := by
          cases hmm : m1At (c :: wipe3C (isWordCh c) t) with
          | none => rfl
          | some k =>
            exfalso
            obtain ⟨d, r, hdr, hal⟩ := m1At_some_drop hmm
            have hsw : startsW (pkTok ++ [d]) (c :: wipe3C (isWordCh c) t) = true := by
              apply startsW_ext (m1At_some_startsW hmm)
              exact hdr
            have hc : c = 's' := by
              have := startsW_trans_app hsw
              have h2 : pkTok = 's' :: ['u', 'i', 'p', 'r', 'i', 'v', 'k', 'e', 'y'] := rfl
              rw [h2] at this
              exact (startsW_cons.mp this).1.symm
            subst hc
            have hsw2 : startsW (['u', 'i', 'p', 'r', 'i', 'v', 'k', 'e', 'y'] ++ [d])
                (wipe3C (isWordCh 's') t) = true := by
              have h2 : pkTok ++ [d] =
                  's' :: (['u', 'i', 'p', 'r', 'i', 'v', 'k', 'e', 'y'] ++ [d]) := rfl
              rw [h2] at hsw
              exact (startsW_cons.mp hsw).2
            have htr : startsW (['u', 'i', 'p', 'r', 'i', 'v', 'k', 'e', 'y'] ++ [d])
                t = true := by
              apply wipe3_bracketfree t.length t _ (isWordCh 's') (le_refl _) _ hsw2
              intro x hx
              rcases List.mem_append.mp hx with hx1 | hx2
              · fin_cases hx1 <;> decide
              · rw [List.mem_singleton.mp hx2]
                exact alnumNotBracket hal
            have hne : m1At ('s' :: t) ≠ none := by
              apply m1At_of_startsW_ext _ hal
              have h2 : pkTok ++ [d] =
                  's' :: (['u', 'i', 'p', 'r', 'i', 'v', 'k', 'e', 'y'] ++ [d]) := rfl
              rw [h2]
              exact startsW_cons.mpr ⟨rfl, htr⟩
            exact hne (hasPk_cons_false h).1
        rw [hnone]
        simpa using hW

/-- Pass 3 preserves absence of address matches. -/
theorem hasAddr_wipe3 (N : Nat) : ∀ (l : List Char) (pw : Bool), l.length ≤ N →
    hasAddr l = false → hasAddr (wipe3C pw l) = false := by
  induction N with
  | zero =>
    intro l pw hl _
    have : l = [] := List.length_eq_zero.mp (by omega)
    subst this
    rfl
  | succ N ih =>
    intro l pw hl ha
    cases l with
    | nil => rfl
    | cons c t =>
      obtain ⟨ha1, ha2⟩ := hasAddr_cons_false ha
      cases hm : m3At pw (c :: t) with
      | some n =>
        rw [wipe3C_match hm]
        have hb := m3At_bounds hm
        have hW := ih ((c :: t).drop n) true (by
          simp only [List.length_drop, List.length_cons]
          simp only [List.length_cons] at hl hb
          omega) (hasAddr_drop n (c :: t) ha)
        rw [hasAddr_mnTag]
        exact hW
      | none =>
        rw [wipe3C_nomatch hm]
        have hW := ih t (isWordCh c) (by simp at hl; omega) ha2
        show ((m2At (c :: wipe3C (isWordCh c) t)).isSome ||
          hasAddr (wipe3C (isWordCh c) t)) = false
        have hnone : m2At (c :: wipe3C (isWordCh c) t) = none := by
          cases hmm : m2At (c :: wipe3C (isWordCh c) t) with
          | none => rfl
          | some h64 =>
            exfalso
            obtain ⟨r, hr, hh64⟩ := m2At_some_decomp hmm
            have hc0 : c = '0' := by
              have := congrArg (fun x => x.headD ' ') hr
              simpa using this
            have hbounds := m2At_bounds hmm
            have hwt : wipe3C (isWordCh c) t = 'x' :: r := by
              have := congrArg List.tail hr
              simpa using this
            have hsw : startsW ('x' :: h64) (wipe3C (isWordCh c) t) = true := by
              rw [hwt]
              refine startsW_cons.mpr ⟨rfl, ?_⟩
              rw [hh64]
              exact startsW_take 64 r
            have htr : startsW ('x' :: h64) t = true := by
              apply wipe3_bracketfree t.length t _ (isWordCh c) (le_refl _) _ hsw
              intro x hx
              rcases List.mem_cons.mp hx with rfl | hx2
              · decide
              · exact hexNotBracket (hbounds.2.1 x hx2)
            have hne2 : m2At ('0' :: t) ≠ none :=
              m2At_of_startsW htr hbounds.1 hbounds.2.1
            rw [← hc0] at hne2
            exact hne2 ha1
        rw [hnone]
        simpa using hW

/-! ### First-divergence decomposition of pass 3 -/

/-- Either pass 3 leaves `l` unchanged, or `l` splits at the first match:
all earlier positions fail, the output copies the prefix and substitutes the
tag at the match. -/
theorem wipe3C_decomp (N : Nat) : ∀ (l : List Char) (pw : Bool), l.length ≤ N →
    wipe3C pw l = l ∨
    ∃ a b n, l = a ++ b ∧ m3At (ctxW pw a) b = some n ∧
      wipe3C pw l = a ++ (mnTag ++ wipe3C true (b.drop n)) := by
  induction N with
  | zero =>
    intro l pw hl
    have : l = [] := List.length_eq_zero.mp (by omega)
    subst this
    exact Or.inl rfl
  | succ N ih =>
    intro l pw hl
    cases l with
    | nil => exact Or.inl rfl
    | cons c t =>
      cases hm : m3At pw (c :: t) with
      | some n =>
        right
        refine ⟨[], c :: t, n, rfl, ?_, ?_⟩
        · rw [ctxW_nil]
          exact hm
        · rw [wipe3C_match hm]
          rfl
      | none =>
        rcases ih t (isWordCh c) (by simp at hl; omega) with
          h1 | ⟨a, b, n, hab, hm3, hw⟩
        · left
          rw [wipe3C_nomatch hm, h1]
        · right
          refine ⟨c :: a, b, n, by rw [List.cons_append, ← hab], ?_, ?_⟩
          · rw [ctxW_cons]
            exact hm3
          · rw [wipe3C_nomatch hm, hw, List.cons_append]

/-! ### List utilities for comparing chains across a shared prefix -/

theorem getLast_memL {α : Type} : ∀ {l : List α} {a : α},
    l.getLast? = some a → a ∈ l := by
  intro l
  induction l with
  | nil => intro a h; simp at h
  | cons x xs ih =>
    intro a h
    cases xs with
    | nil =>
      simp at h
      simp [h]
    | cons y ys =>
      rw [List.getLast?_cons_cons] at h
      exact List.mem_cons_of_mem x (ih h)

theorem twAllOfLen (p : Char → Bool) : ∀ (l : List Char),
    (l.takeWhile p).length = l.length → ∀ c ∈ l, p c = true := by
  intro l
  induction l with
  | nil => intro _ c hc; simp at hc
  | cons x t ih =>
    intro h c hc
    by_cases hx : p x
    · rw [List.takeWhile_cons_of_pos hx] at h
      simp only [List.length_cons] at h
      rcases List.mem_cons.mp hc with rfl | h2
      · exact hx
      · exact ih (by omega) c h2
    · rw [List.takeWhile_cons_of_neg hx] at h
      simp at h

theorem twStop (p : Char → Bool) : ∀ (P tail : List Char),
    (∃ c ∈ P, p c = false) → (P ++ tail).takeWhile p = P.takeWhile p := by
  intro P
  induction P with
  | nil =>
    intro tail h
    obtain ⟨c, hc, _⟩ := h
    simp at hc
  | cons x P' ih =>
    intro tail h
    by_cases hx : p x
    · rw [List.cons_append, List.takeWhile_cons_of_pos hx,
        List.takeWhile_cons_of_pos hx]
      obtain ⟨c, hc, hpc⟩ := h
      have hc' : c ∈ P' := by
        rcases List.mem_cons.mp hc with rfl | h2
        · rw [hx] at hpc
          exact absurd hpc (by decide)
        · exact h2
      rw [ih tail ⟨c, hc', hpc⟩]
    · rw [List.cons_append, List.takeWhile_cons_of_neg hx,
        List.takeWhile_cons_of_neg hx]

theorem dropAppLe {α : Type} : ∀ (n : Nat) (P t : List α), n ≤ P.length →
    (P ++ t).drop n = P.drop n ++ t := by
  intro n
  induction n with
  | zero => intro P t _; rfl
  | succ n ih =>
    intro P t h
    cases P with
    | nil => simp at h
    | cons x P' =>
      show (P' ++ t).drop n = P'.drop n ++ t
      exact ih P' t (by simp at h; omega)

theorem getLastDrop {α : Type} : ∀ (k : Nat) (l : List α), k < l.length →
    (l.drop k).getLast? = l.getLast? := by
  intro k
  induction k with
  | zero => intro l _; rfl
  | succ k ih =>
    intro l h
    cases l with
    | nil => simp at h
    | cons x l' =>
      show (l'.drop k).getLast? = (x :: l').getLast?
      simp only [List.length_cons] at h
      rw [ih l' (by omega)]
      cases l' with
      | nil => simp at h
      | cons y ys => rw [List.getLast?_cons_cons]

theorem drop_ne_nil {α : Type} (k : Nat) (l : List α) (h : k < l.length) :
    l.drop k ≠ [] := by
  intro hx
  have := congrArg List.length hx
  simp only [List.length_drop] at this
  simp at this
  omega

theorem headD_append_ne {α : Type} (P t : List α) (x : α) (h : P ≠ []) :
    (P ++ t).headD x = P.headD x := by
  cases P with
  | nil => exact absurd rfl h
  | cons y ys => rfl

/-- Word chains across a shared prefix whose final character is a non-word
character: against the tag bracket the chain either equals the chain against
a lowercase continuation, or the lowercase continuation extends it by the
chain of the divergent suffix. -/
theorem chainCompare : ∀ (fuel : Nat) (P Y W : List Char) (d : Char),
    P.length ≤ fuel →
    (∃ z, P.getLast? = some z ∧ isWordCh z = false) →
    isLowerAZ d = true →
    chainUnits (P ++ '[' :: Y) = chainUnits (P ++ d :: W) ∨
    ∃ pre w s, s ≠ [] ∧
      chainUnits (P ++ '[' :: Y) = pre ++ [(w, s)] ∧
      chainUnits (P ++ d :: W) = pre ++ (w, s) :: chainUnits (d :: W) := by
  intro fuel
  induction fuel with
  | zero =>
    intro P Y W d hf hPz hd
    obtain ⟨z, hz, _⟩ := hPz
    have hP0 : P = [] := List.length_eq_zero.mp (by omega)
    subst hP0
    simp at hz
  | succ fuel ih =>
    intro P Y W d hf hPz hd
    obtain ⟨z, hz, hzw⟩ := hPz
    have hzP : z ∈ P := getLast_memL hz
    have hzl : isLowerAZ z = false := notWordNotLower hzw
    have hstop : ∃ c ∈ P, isLowerAZ c = false := ⟨z, hzP, hzl⟩
    have hwX : wOf (P ++ '[' :: Y) = P.takeWhile isLowerAZ :=
      twStop isLowerAZ P _ hstop
    have hwZ : wOf (P ++ d :: W) = P.takeWhile isLowerAZ :=
      twStop isLowerAZ P _ hstop
    have hwlen_le : (P.takeWhile isLowerAZ).length ≤ P.length := twLen _ _
    by_cases hwE : (P.takeWhile isLowerAZ).isEmpty
    · left
      rw [chainUnits_eq (P ++ '[' :: Y), chainUnits_eq (P ++ d :: W), hwX, hwZ,
        if_pos hwE, if_pos hwE]
    · have hwlen : (P.takeWhile isLowerAZ).length < P.length := by
        rcases Nat.lt_or_ge (P.takeWhile isLowerAZ).length P.length with h | h
        · exact h
        · exfalso
          have hall := twAllOfLen isLowerAZ P (by omega)
          rw [hall z hzP] at hzl
          exact absurd hzl (by decide)
      have hdX : (P ++ '[' :: Y).drop (wOf (P ++ '[' :: Y)).length =
          P.drop (P.takeWhile isLowerAZ).length ++ '[' :: Y := by
        rw [hwX]
        exact dropAppLe _ _ _ hwlen_le
      have hdZ : (P ++ d :: W).drop (wOf (P ++ d :: W)).length =
          P.drop (P.takeWhile isLowerAZ).length ++ d :: W := by
        rw [hwZ]
        exact dropAppLe _ _ _ hwlen_le
      have hP1ne : P.drop (P.takeWhile isLowerAZ).length ≠ [] :=
        drop_ne_nil _ _ hwlen
      have hP1last : (P.drop (P.takeWhile isLowerAZ).length).getLast? = some z := by
        rw [getLastDrop _ P hwlen]
        exact hz
      obtain ⟨P1, hP1⟩ : ∃ x, P.drop (P.takeWhile isLowerAZ).length = x := ⟨_, rfl⟩
      rw [hP1] at hdX hdZ hP1ne hP1last
      have hP1len : P1.length < P.length := by
        rw [← hP1]
        simp only [List.length_drop]
        have hwpos : 0 < (P.takeWhile isLowerAZ).length := by
          cases hwe2 : P.takeWhile isLowerAZ with
          | nil => rw [hwe2] at hwE; exact absurd rfl hwE
          | cons a as => simp
        omega
      have hseq : (P1 ++ '[' :: Y).takeWhile isWsCh =
          (P1 ++ d :: W).takeWhile isWsCh := by
        by_cases hall : ∀ c ∈ P1, isWsCh c = true
        · rw [twAppAll isWsCh P1 _ hall, twAppAll isWsCh P1 _ hall,
            twHeadNeg isWsCh '[' Y (by decide),
            twHeadNeg isWsCh d W (lowerNotWs hd)]
        · push_neg at hall
          obtain ⟨c, hc, hpc⟩ := hall
          have hpc' : isWsCh c = false := by
            cases hx : isWsCh c
            · rfl
            · exact absurd hx hpc
          rw [twStop isWsCh P1 _ ⟨c, hc, hpc'⟩, twStop isWsCh P1 _ ⟨c, hc, hpc'⟩]
      have hsX : sOf (P ++ '[' :: Y) = (P1 ++ '[' :: Y).takeWhile isWsCh := by
        unfold sOf
        rw [hdX]
      have hsZ : sOf (P ++ d :: W) = (P1 ++ '[' :: Y).takeWhile isWsCh := by
        unfold sOf
        rw [hdZ, ← hseq]
      have hsP1 : (P1 ++ '[' :: Y).takeWhile isWsCh = P1.takeWhile isWsCh ∨
          (P1 ++ '[' :: Y).takeWhile isWsCh = P1 := by
        by_cases hall : ∀ c ∈ P1, isWsCh c = true
        · right
          rw [twAppAll isWsCh P1 _ hall, twHeadNeg isWsCh '[' Y (by decide),
            List.append_nil]
        · push_neg at hall
          obtain ⟨c, hc, hpc⟩ := hall
          have hpc' : isWsCh c = false := by
            cases hx : isWsCh c
            · rfl
            · exact absurd hx hpc
          left
          exact twStop isWsCh P1 _ ⟨c, hc, hpc'⟩
      obtain ⟨s, hsgen⟩ : ∃ x, (P1 ++ '[' :: Y).takeWhile isWsCh = x := ⟨_, rfl⟩
      rw [hsgen] at hsX hsZ hsP1
      have hslen : s.length ≤ P1.length := by
        rcases hsP1 with h | h
        · rw [h]
          exact twLen _ _
        · exact le_of_eq (congrArg List.length h)
      by_cases hsE : s.isEmpty
      · left
        rw [chainUnits_eq (P ++ '[' :: Y), chainUnits_eq (P ++ d :: W),
          hwX, hwZ, hsX, hsZ, if_neg hwE, if_neg hwE, if_pos hsE, if_pos hsE]
      · have hsne : s ≠ [] := by
          intro hx
          rw [hx] at hsE
          exact hsE rfl
        have hrX : restOf (P ++ '[' :: Y) = (P1 ++ '[' :: Y).drop s.length := by
          unfold restOf
          rw [hdX, hsX]
        have hrZ : restOf (P ++ d :: W) = (P1 ++ d :: W).drop s.length := by
          unfold restOf
          rw [hdZ, hsZ]
        rcases Nat.lt_or_ge s.length P1.length with hslt | hsge
        · have hP2ne : P1.drop s.length ≠ [] := drop_ne_nil _ _ hslt
          have hrX2 : restOf (P ++ '[' :: Y) = P1.drop s.length ++ '[' :: Y := by
            rw [hrX]
            exact dropAppLe _ _ _ (by omega)
          have hrZ2 : restOf (P ++ d :: W) = P1.drop s.length ++ d :: W := by
            rw [hrZ]
            exact dropAppLe _ _ _ (by omega)
          obtain ⟨P2, hP2⟩ : ∃ x, P1.drop s.length = x := ⟨_, rfl⟩
          rw [hP2] at hP2ne hrX2 hrZ2
          have hP2last : P2.getLast? = some z := by
            rw [← hP2, getLastDrop _ P1 hslt]
            exact hP1last
          have hP2len : P2.length < P1.length := by
            rw [← hP2]
            simp only [List.length_drop]
            have hspos : 0 < s.length := by
              cases hx : s with
              | nil => exact absurd hx hsne
              | cons a as => simp
            omega
          have hheadX : (restOf (P ++ '[' :: Y)).headD ' ' = P2.headD ' ' := by
            rw [hrX2]
            exact headD_append_ne _ _ _ hP2ne
          have hheadZ : (restOf (P ++ d :: W)).headD ' ' = P2.headD ' ' := by
            rw [hrZ2]
            exact headD_append_ne _ _ _ hP2ne
          by_cases hlow : isLowerAZ (P2.headD ' ')
          · have hcX : chainUnits (P ++ '[' :: Y) =
                (P.takeWhile isLowerAZ, s) :: chainUnits (P2 ++ '[' :: Y) := by
              rw [chainUnits_eq (P ++ '[' :: Y), hwX, hsX, hheadX, hrX2,
                if_neg hwE, if_neg hsE, if_pos hlow]
            have hcZ : chainUnits (P ++ d :: W) =
                (P.takeWhile isLowerAZ, s) :: chainUnits (P2 ++ d :: W) := by
              rw [chainUnits_eq (P ++ d :: W), hwZ, hsZ, hheadZ, hrZ2,
                if_neg hwE, if_neg hsE, if_pos hlow]
            rcases ih P2 Y W d (by omega) ⟨z, hP2last, hzw⟩ hd with
              heq | ⟨pre, w', s', hs'ne, he1, he2⟩
            · left
              rw [hcX, hcZ, heq]
            · right
              refine ⟨(P.takeWhile isLowerAZ, s) :: pre, w', s', hs'ne, ?_, ?_⟩
              · rw [hcX, he1, List.cons_append]
              · rw [hcZ, he2, List.cons_append]
          · left
            rw [chainUnits_eq (P ++ '[' :: Y), chainUnits_eq (P ++ d :: W),
              hwX, hwZ, hsX, hsZ, hheadX, hheadZ,
              if_neg hwE, if_neg hwE, if_neg hsE, if_neg hsE,
              if_neg hlow, if_neg hlow]
        · have hsP : s = P1 := by
            rcases hsP1 with h | h
            · have h1 : (P1.takeWhile isWsCh).length ≤ P1.length := twLen _ _
              have h2 : (P1.takeWhile isWsCh).length = P1.length := by
                have := congrArg List.length h
                omega
              have hall := twAllOfLen isWsCh P1 h2
              rw [h]
              exact twAll isWsCh P1 hall
            · exact h
          have hrX2 : restOf (P ++ '[' :: Y) = '[' :: Y := by
            rw [hrX, hsP]
            exact dropAt P1 _ rfl
          have hrZ2 : restOf (P ++ d :: W) = d :: W := by
            rw [hrZ, hsP]
            exact dropAt P1 _ rfl
          right
          refine ⟨[], P.takeWhile isLowerAZ, s, hsne, ?_, ?_⟩
          · rw [chainUnits_eq (P ++ '[' :: Y), hwX, hsX, hrX2,
              if_neg hwE, if_neg hsE]
            have hhX : ('[' :: Y).headD ' ' = '[' := rfl
            rw [hhX, if_neg (show ¬ isLowerAZ '[' = true from by decide)]
            rfl
          · rw [chainUnits_eq (P ++ d :: W), hwZ, hsZ, hrZ2,
              if_neg hwE, if_neg hsE]
            have hhZ : (d :: W).headD ' ' = d := rfl
            rw [hhZ, if_pos hd]
            rfl

/-! ### Transfer of mnemonic failure across a tag substitution -/

theorem takeAll {α : Type} : ∀ (n : Nat) (l : List α), l.length ≤ n →
    l.take n = l := by
  intro n
  induction n with
  | zero =>
    intro l h
    cases l with
    | nil => rfl
    | cons x xs => simp at h
  | succ n ih =>
    intro l h
    cases l with
    | nil => rfl
    | cons x xs =>
      show x :: xs.take n = x :: xs
      rw [ih xs (by simp at h; omega)]

theorem getLast_append_ne {α : Type} (A B : List α) (h : B ≠ []) :
    (A ++ B).getLast? = B.getLast? := by
  induction A with
  | nil => rfl
  | cons x xs ih =>
    rw [List.cons_append]
    cases hx : xs ++ B with
    | nil => exact absurd (List.append_eq_nil.mp hx).2 h
    | cons y ys =>
      rw [List.getLast?_cons_cons, ← hx]
      exact ih

theorem unitsFlat_mem_ex {us : List (List Char × List Char)} {c : Char}
    (h : c ∈ unitsFlat us) : ∃ u ∈ us, c ∈ u.1 ∨ c ∈ u.2 := by
  induction us with
  | nil => simp [unitsFlat] at h
  | cons u rest ih =>
    have h2 : c ∈ u.1 ++ u.2 ++ unitsFlat rest := h
    rcases List.mem_append.mp h2 with h3 | h4
    · rcases List.mem_append.mp h3 with h5 | h6
      · exact ⟨u, by simp, Or.inl h5⟩
      · exact ⟨u, by simp, Or.inr h6⟩
    · obtain ⟨v, hv, hcv⟩ := ih h4
      exact ⟨v, by simp [hv], hcv⟩

/-- The word chain of a list that continues with the tag bracket after a
prefix never consumes past that prefix. -/
theorem unitsLen_chain_le (P Y : List Char) :
    unitsLen (chainUnits (P ++ '[' :: Y)) ≤ P.length := by
  obtain ⟨rem, hrem⟩ := chainUnits_flat (P ++ '[' :: Y).length _ (le_refl _)
  have hmem : ∀ c ∈ unitsFlat (chainUnits (P ++ '[' :: Y)),
      isLowerAZ c = true ∨ isWsCh c = true := by
    intro c hc
    obtain ⟨u, hu, hcu⟩ := unitsFlat_mem_ex hc
    have hinv := chainUnits_inv (P ++ '[' :: Y).length _ (le_refl _) u hu
    rcases hcu with h1 | h2
    · exact Or.inl (hinv.2.1 c h1)
    · exact Or.inr (hinv.2.2 c h2)
  obtain ⟨F, hF⟩ : ∃ F, unitsFlat (chainUnits (P ++ '[' :: Y)) = F := ⟨_, rfl⟩
  rw [hF] at hrem hmem
  rw [unitsLen_flat, hF]
  by_contra hgt
  push_neg at hgt
  have hFtake : F = (P ++ '[' :: Y).take F.length := by
    rw [hrem, List.take_left]
  have htk : (P ++ '[' :: Y).take F.length =
      P ++ ('[' :: Y).take (F.length - P.length) := by
    rw [List.take_append_eq_append_take, takeAll _ _ (le_of_lt hgt)]
  have hbr : '[' ∈ F := by
    rw [hFtake, htk]
    apply List.mem_append_right
    have hpos : F.length - P.length = (F.length - P.length - 1) + 1 := by omega
    rw [hpos]
    show '[' ∈ '[' :: Y.take (F.length - P.length - 1)
    simp
  rcases hmem '[' hbr with h1 | h2
  · exact absurd h1 (by decide)
  · exact absurd h2 (by decide)

/-- When the chain's final unit carries no whitespace, the chain ends with a
word letter, so it cannot consume the whole prefix `P`, whose last character
is not a word character. -/
theorem unitsLen_lt_of_last_empty {P Y : List Char} {w2 : List Char} {z : Char}
    (hz : P.getLast? = some z) (hzw : isWordCh z = false)
    (hgl : (chainUnits (P ++ '[' :: Y)).getLast? = some (w2, [])) :
    unitsLen (chainUnits (P ++ '[' :: Y)) < P.length := by
  rcases Nat.lt_or_ge (unitsLen (chainUnits (P ++ '[' :: Y))) P.length with h | h
  · exact h
  · exfalso
    have hle := unitsLen_chain_le P Y
    have heqn : unitsLen (chainUnits (P ++ '[' :: Y)) = P.length := by omega
    have hne : chainUnits (P ++ '[' :: Y) ≠ [] := by
      intro hx
      rw [hx] at hgl
      simp at hgl
    rcases List.eq_nil_or_concat (chainUnits (P ++ '[' :: Y)) with h0 | ⟨pre2, b, hcon⟩
    · exact hne h0
    · rw [List.concat_eq_append] at hcon
      have hb : b = (w2, []) := by
        have hx := hgl
        rw [hcon, List.getLast?_concat] at hx
        exact Option.some.inj hx
      subst hb
      obtain ⟨rem, hrem⟩ := chainUnits_flat (P ++ '[' :: Y).length _ (le_refl _)
      have hw2ne : w2 ≠ [] :=
        (chainUnits_inv (P ++ '[' :: Y).length _ (le_refl _) (w2, [])
          (by rw [hcon]; simp)).1
      have hlower : ∀ c ∈ w2, isLowerAZ c = true :=
        (chainUnits_inv (P ++ '[' :: Y).length _ (le_refl _) (w2, [])
          (by rw [hcon]; simp)).2.1
      have hF : unitsFlat (chainUnits (P ++ '[' :: Y)) = unitsFlat pre2 ++ w2 := by
        rw [hcon, unitsFlat_append]
        show unitsFlat pre2 ++ (w2 ++ [] ++ []) = _
        simp
      obtain ⟨F, hFgen⟩ : ∃ F, unitsFlat (chainUnits (P ++ '[' :: Y)) = F := ⟨_, rfl⟩
      rw [hFgen] at hrem hF
      have hFlen : F.length = P.length := by
        rw [← hFgen, ← unitsLen_flat]
        exact heqn
      have hFP : F = P := by
        have h1 : F = (P ++ '[' :: Y).take F.length := by
          rw [hrem, List.take_left]
        rw [h1, hFlen, List.take_left]
      obtain ⟨y, hy⟩ : ∃ y, w2.getLast? = some y := by
        cases hwc : w2 with
        | nil => exact absurd hwc hw2ne
        | cons a as =>
          have hsy : ((a :: as).getLast?).isSome := by
            rw [List.getLast?_isSome]
            simp
          exact Option.isSome_iff_exists.mp hsy
      have hyw : isWordCh y = true := lowerWord (hlower y (getLast_memL hy))
      have hFlast : F.getLast? = some y := by
        rw [hF, getLast_append_ne _ _ hw2ne]
        exact hy
      rw [hFP, hz] at hFlast
      have hzy : z = y := Option.some.inj hFlast
      rw [← hzy] at hyw
      rw [hyw] at hzw
      exact absurd hzw (by decide)

theorem tailBd_none {l : List Char} {us : List (List Char × List Char)}
    (h : us.getLast? = none) : tailBd l us = false := by
  unfold tailBd
  rw [h]

theorem tailBd_some_sne {l : List Char} {us : List (List Char × List Char)}
    {w2 s2 : List Char} (h : us.getLast? = some (w2, s2)) (hs : s2 ≠ []) :
    tailBd l us = true := by
  unfold tailBd
  rw [h]
  cases s2 with
  | nil => exact absurd rfl hs
  | cons x xs => rfl

theorem tailBd_some_nil_nil {l : List Char} {us : List (List Char × List Char)}
    {w2 : List Char} (h : us.getLast? = some (w2, []))
    (hd : l.drop (unitsLen us) = []) : tailBd l us = true := by
  unfold tailBd
  rw [h, hd]
  rfl

theorem tailBd_some_nil_cons {l : List Char} {us : List (List Char × List Char)}
    {w2 : List Char} {c : Char} {cs : List Char}
    (h : us.getLast? = some (w2, [])) (hd : l.drop (unitsLen us) = c :: cs) :
    tailBd l us = !isWordCh c := by
  unfold tailBd
  rw [h, hd]
  rfl

/-- With equal chains across the shared prefix, a satisfied trailing
boundary on the tag side transfers to the lowercase side. -/
theorem tailBd_transfer {P Y W : List Char} {d0 z : Char}
    (hz : P.getLast? = some z) (hzw : isWordCh z = false)
    (heq : chainUnits (P ++ '[' :: Y) = chainUnits (P ++ d0 :: W))
    (htb : tailBd (P ++ '[' :: Y) (chainUnits (P ++ '[' :: Y)) = true) :
    tailBd (P ++ d0 :: W) (chainUnits (P ++ d0 :: W)) = true := by
  cases hgl : (chainUnits (P ++ '[' :: Y)).getLast? with
  | none =>
    rw [tailBd_none hgl] at htb
    exact absurd htb (by decide)
  | some u =>
    obtain ⟨w2, s2⟩ := u
    cases s2 with
    | cons x xs =>
      exact tailBd_some_sne
        (show (chainUnits (P ++ d0 :: W)).getLast? = some (w2, x :: xs) by
          rw [← heq]; exact hgl) (by simp)
    | nil =>
      have hlt : unitsLen (chainUnits (P ++ '[' :: Y)) < P.length :=
        unitsLen_lt_of_last_empty hz hzw hgl
      have hPdne : P.drop (unitsLen (chainUnits (P ++ '[' :: Y))) ≠ [] :=
        drop_ne_nil _ _ hlt
      cases hPd : P.drop (unitsLen (chainUnits (P ++ '[' :: Y))) with
      | nil => exact absurd hPd hPdne
      | cons p ps =>
        have hdX : (P ++ '[' :: Y).drop (unitsLen (chainUnits (P ++ '[' :: Y))) =
            p :: (ps ++ '[' :: Y) := by
          rw [dropAppLe _ _ _ (le_of_lt hlt), hPd, List.cons_append]
        have hdZ : (P ++ d0 :: W).drop (unitsLen (chainUnits (P ++ d0 :: W))) =
            p :: (ps ++ d0 :: W) := by
          rw [← heq, dropAppLe _ _ _ (le_of_lt hlt), hPd, List.cons_append]
        rw [tailBd_some_nil_cons hgl hdX] at htb
        rw [tailBd_some_nil_cons (show (chainUnits (P ++ d0 :: W)).getLast? =
          some (w2, []) by rw [← heq]; exact hgl) hdZ]
        exact htb

theorem m3At_false_ne_none_of_len {l : List Char}
    (h : 13 ≤ (chainUnits l).length) : m3At false l ≠ none := by
  intro hx
  rcases (m3At_false_none_iff l).mp hx with h1 | ⟨h2, _⟩ <;> omega

theorem ctxW_last {a : List Char} {z : Char} (pw : Bool)
    (h : a.getLast? = some z) : ctxW pw a = isWordCh z := by
  unfold ctxW
  rw [h]

theorem chain_head {l : List Char} (h : chainUnits l ≠ []) :
    ∃ d bs, l = d :: bs ∧ isLowerAZ d = true := by
  cases l with
  | nil => exact absurd rfl h
  | cons d bs =>
    refine ⟨d, bs, rfl, ?_⟩
    cases hx : isLowerAZ d with
    | true => rfl
    | false =>
      exfalso
      apply h
      rw [chainUnits_eq]
      have hwnil : wOf (d :: bs) = [] := twHeadNeg isLowerAZ d bs hx
      rw [hwnil]
      rw [if_pos (show (([] : List Char)).isEmpty = true from rfl)]

/-- Failure of the mnemonic rule at `c :: t` transfers to `c` followed by
the pass-3 rewrite of `t`: a fresh match would need a word chain reaching
the first substituted tag, but the tag opens with a bracket and sits where
`t` continued with at least twelve more chain units. -/
theorem m3At_transfer (c : Char) (t : List Char)
    (hm : m3At false (c :: t) = none) :
    m3At false (c :: wipe3C (isWordCh c) t) = none := by
  cases hcl : isLowerAZ c with
  | false => exact m3At_notlower hcl false
  | true =>
    rcases wipe3C_decomp t.length t (isWordCh c) (le_refl _) with
      h1 | ⟨a, b, n, hab, hm3, hw⟩
    · rw [h1]
      exact hm
    · rw [hw]
      have hcases := m3At_cases hm3
      have hpwf : ctxW (isWordCh c) a = false := hcases.1
      have hane : a ≠ [] := by
        intro hx
        rw [hx, ctxW_nil, lowerWord hcl] at hpwf
        exact absurd hpwf (by decide)
      obtain ⟨z, hzeq⟩ : ∃ z, a.getLast? = some z := by
        cases hac : a with
        | nil => exact absurd hac hane
        | cons x xs =>
          have hsy : ((x :: xs).getLast?).isSome := by
            rw [List.getLast?_isSome]
            simp
          exact Option.isSome_iff_exists.mp hsy
      have hzw : isWordCh z = false := by
        rw [ctxW_last (isWordCh c) hzeq] at hpwf
        exact hpwf
      have hbchain : chainUnits b ≠ [] := by
        have h12 := hcases.2.1
        intro hx
        rw [hx] at h12
        simp at h12
      obtain ⟨d0, bs, hb, hd0⟩ := chain_head hbchain
      have hPz : (c :: a).getLast? = some z := by
        cases hac : a with
        | nil => exact absurd hac hane
        | cons x xs =>
          rw [hac] at hzeq
          rw [List.getLast?_cons_cons]
          exact hzeq
      have hX : c :: (a ++ (mnTag ++ wipe3C true (b.drop n))) =
          (c :: a) ++ '[' :: (['M', 'N', 'E', 'M', 'O', 'N', 'I', 'C', ']'] ++
            wipe3C true (b.drop n)) := rfl
      have hZ : c :: t = (c :: a) ++ d0 :: bs := by
        rw [hab, hb]
        rfl
      rcases chainCompare (c :: a).length (c :: a)
        (['M', 'N', 'E', 'M', 'O', 'N', 'I', 'C', ']'] ++ wipe3C true (b.drop n))
        bs d0 (le_refl _) ⟨z, hPz, hzw⟩ hd0 with
        heq | ⟨pre, w2, s2, hs2ne, he1, he2⟩
      · rw [hX]
        rw [hZ] at hm
        rw [m3At_false_none_iff] at hm ⊢
        rcases hm with hlt | ⟨h12, htbf⟩
        · left
          rw [heq]
          exact hlt
        · right
          refine ⟨by rw [heq]; exact h12, ?_⟩
          cases htbX : tailBd ((c :: a) ++ '[' ::
              (['M', 'N', 'E', 'M', 'O', 'N', 'I', 'C', ']'] ++
                wipe3C true (b.drop n)))
              (chainUnits ((c :: a) ++ '[' ::
                (['M', 'N', 'E', 'M', 'O', 'N', 'I', 'C', ']'] ++
                  wipe3C true (b.drop n)))) with
          | false => rfl
          | true =>
            have htr := tailBd_transfer hPz hzw heq htbX
            rw [htbf] at htr
            exact absurd htr (by decide)
      · exfalso
        have hblen := hcases.2.1
        have hZlen : 13 ≤ (chainUnits ((c :: a) ++ d0 :: bs)).length := by
          rw [he2, ← hb]
          simp only [List.length_append, List.length_cons]
          omega
        have hnn := m3At_false_ne_none_of_len hZlen
        rw [← hZ] at hnn
        exact hnn hm

/-- Pass 3 leaves no mnemonic match at any position of its own output. -/
theorem wipe3C_noM3 (N : Nat) : ∀ (l : List Char) (pw : Bool), l.length ≤ N →
    noM3 pw (wipe3C pw l) := by
  induction N with
  | zero =>
    intro l pw hl
    have : l = [] := List.length_eq_zero.mp (by omega)
    subst this
    exact noM3_nil pw
  | succ N ih =>
    intro l pw hl
    cases l with
    | nil => exact noM3_nil pw
    | cons c t =>
      cases hm : m3At pw (c :: t) with
      | some n =>
        rw [wipe3C_match hm]
        have hb := m3At_bounds hm
        have hW : noM3 true (wipe3C true ((c :: t).drop n)) := by
          apply ih
          simp only [List.length_drop, List.length_cons]
          simp only [List.length_cons] at hl hb
          omega
        apply noM3_mnTag
        apply noM3_false_of_true _ hW
        rcases m3At_drop_notlower hm with hnil | ⟨c2, cs2, hdr, hc2⟩
        · rw [hnil]
          exact m3At_nil false
        · rw [hdr, wipe3C_nomatch (m3At_true _)]
          exact m3At_notlower hc2 false
      | none =>
        rw [wipe3C_nomatch hm]
        have hW := ih t (isWordCh c) (by simp at hl; omega)
        apply noM3_cons_intro _ hW
        cases hpw : pw with
        | true => exact m3At_true _
        | false =>
          rw [hpw] at hm
          exact m3At_transfer c t hm

/-- Pass 3 is idempotent. -/
theorem wipe3C_self (l : List Char) (pw : Bool) :
    wipe3C pw (wipe3C pw l) = wipe3C pw l :=
  wipe3C_of_noM3 (wipe3C_noM3 l.length l pw (le_refl _))

/-- C3 amended: sanitization is idempotent on every input with no match of
the address pattern.  Pass 1 of the second application finds no private-key
token (pass 1 cleans them and passes 2 and 3 introduce none), pass 2 finds
no address (absent by hypothesis and never introduced), and pass 3 is
idempotent; the counterexample shows the unrestricted claim fails because
masking an address can create a fresh address match. -/
theorem sanitize_idempotent_amended (t : String)
    (haddr : hasAddr t.data = false) :
    sanitize_output (sanitize_output t) = sanitize_output t := by
  have haddr1 : hasAddr (wipe1 t.data) = false :=
    hasAddr_wipe1 t.data.length t.data (le_refl _) haddr
  have hpk1 : hasPk (wipe1 t.data) = false :=
    hasPk_wipe1 t.data.length t.data (le_refl _)
  have hs : sanitize_output t = ⟨wipe3C false (wipe1 t.data)⟩ := by
    unfold sanitize_output
    rw [wipe2_id haddr1, wipe3_eq_wipe3C]
  have hpk2 : hasPk (wipe3C false (wipe1 t.data)) = false :=
    hasPk_wipe3 (wipe1 t.data).length _ false (le_refl _) hpk1
  have haddr2 : hasAddr (wipe3C false (wipe1 t.data)) = false :=
    hasAddr_wipe3 (wipe1 t.data).length _ false (le_refl _) haddr1
  rw [hs]
  unfold sanitize_output
  have hdata : (⟨wipe3C false (wipe1 t.data)⟩ : String).data =
      wipe3C false (wipe1 t.data) := rfl
  rw [hdata, wipe1_id hpk2, wipe2_id haddr2, wipe3_eq_wipe3C,
    wipe3C_self (wipe1 t.data) false]

/-- C3 amended witness: a concrete address-free input containing a
private-key token and a 14-word run is a fixed point of the second
application. -/
theorem sanitize_idempotent_amended_witness :
    hasAddr "key suiprivkeyAbC123 of a b c d e f g h i j k l m n".data = false ∧
    sanitize_output (sanitize_output
        "key suiprivkeyAbC123 of a b c d e f g h i j k l m n") =
      sanitize_output "key suiprivkeyAbC123 of a b c d e f g h i j k l m n" :=
  ⟨by decide,
   sanitize_idempotent_amended "key suiprivkeyAbC123 of a b c d e f g h i j k l m n"
     (by decide)⟩

/-! ### C2 with an arbitrary whitespace separator -/

theorem wsNotAlnum {c : Char} (h : isWsCh c = true) : isAlnumAscii c = false := by
  simp only [isWsCh, Bool.or_eq_true, decide_eq_true_eq] at h
  rcases h with ((rfl | rfl) | rfl) | rfl <;> decide

theorem wsNotS {c : Char} (h : isWsCh c = true) : c ≠ 's' := by
  intro hc
  subst hc
  exact absurd h (by decide)

theorem wipe2_pre_ne0 : ∀ (pre l : List Char), (∀ c ∈ pre, c ≠ '0') →
    wipe2 (pre ++ l) = pre ++ wipe2 l := by
  intro pre
  induction pre with
  | nil => intro l _; rfl
  | cons x xs ih =>
    intro l h
    rw [List.cons_append, wipe2_nomatch (m2At_none_head (h x (by simp))),
      ih l (fun c hc => h c (by simp [hc]))]
    rfl

/-- A whitespace-free list carries a chain of at most one unit. -/
theorem chainUnits_le_one_nows {l : List Char} (h : l.countP isWsCh = 0) :
    (chainUnits l).length ≤ 1 := by
  rw [chainUnits_eq]
  by_cases h1 : (wOf l).isEmpty
  · rw [if_pos h1]
    simp
  · rw [if_neg h1]
    by_cases h2 : (sOf l).isEmpty
    · rw [if_pos h2]
      simp
    · exfalso
      cases hs : sOf l with
      | nil => rw [hs] at h2; exact h2 rfl
      | cons x xs =>
        have hx : isWsCh x = true := sOf_mem (l := l) (by rw [hs]; simp)
        have hmem : x ∈ l := by
          have h3 : x ∈ sOf l := by rw [hs]; simp
          have h4 : x ∈ l.drop (wOf l).length := by
            unfold sOf at h3
            rw [splitTW isWsCh (l.drop (wOf l).length)]
            exact List.mem_append_left _ h3
          rw [splitWOf l]
          exact List.mem_append_right _ h4
        exact absurd hx ((List.countP_eq_zero.mp h) x hmem)

theorem noM3_nows : ∀ (l : List Char), l.countP isWsCh = 0 → ∀ pw, noM3 pw l := by
  intro l
  induction l with
  | nil => intro _ pw; exact noM3_nil pw
  | cons c t ih =>
    intro h pw
    have hm : m3At pw (c :: t) = none :=
      m3At_short (by
        have := chainUnits_le_one_nows (l := c :: t) h
        omega)
    exact noM3_cons_intro hm (ih (by
      rw [List.countP_cons] at h
      omega) (isWordCh c))

theorem noM3_ws_pre : ∀ (sep l : List Char), (∀ c ∈ sep, isWsCh c = true) →
    (∀ pw, noM3 pw l) → ∀ pw, noM3 pw (sep ++ l) := by
  intro sep
  induction sep with
  | nil => intro l _ h pw; exact h pw
  | cons x xs ih =>
    intro l hws h pw
    rw [List.cons_append]
    exact noM3_cons_intro
      (m3At_notlower (wsNotLower (hws x (by simp))) pw)
      (ih l (fun c hc => hws c (by simp [hc])) h (isWordCh x))

/-- C2 amended: when the captured stdout is a private-key token, a nonempty
run of whitespace characters, and a full 64-hex address,
`execute_sui_command` returns the mask, the same separator, and the
partially masked address (the raw token gone); the adjacency counterexample
shows why the separator is needed. -/
theorem exec_token_then_address_masked (body sep h64 : List Char)
    (args : List String) (st : AppState) (dur : Nat) (es : String)
    (code : Option Int) (hbne : body ≠ [])
    (hbal : ∀ c ∈ body, isAlnumAscii c = true)
    (hsne : sep ≠ []) (hsws : ∀ c ∈ sep, isWsCh c = true)
    (hlen : h64.length = 64) (hhex : ∀ c ∈ h64, isHexCh c = true) :
    execute_sui_command args
        (Except.ok ⟨⟨pkTok ++ body ++ (sep ++ '0' :: 'x' :: h64)⟩, es, code⟩)
        st dur =
      Except.ok
        ({ stdout := ⟨maskTok ++ sep ++ maskRep h64⟩
           stderr := sanitize_output es
           exit_code := code.getD (-1)
           duration_ms := dur },
         { st with last_command := String.intercalate " " args }) := by
  cases sep with
  | nil => exact absurd rfl hsne
  | cons s0 srest =>
    have hs0 : isWsCh s0 = true := hsws s0 (by simp)
    have hsrest : ∀ c ∈ srest, isWsCh c = true :=
      fun c hc => hsws c (by simp [hc])
    have hm1 : m1At ((pkTok ++ body) ++ ((s0 :: srest) ++ '0' :: 'x' :: h64)) =
        some (10 + body.length) := by
      unfold m1At
      rw [List.append_assoc]
      rw [if_pos (startsW_of_append pkTok
        (body ++ ((s0 :: srest) ++ '0' :: 'x' :: h64)))]
      have hd : (pkTok ++ (body ++ ((s0 :: srest) ++ '0' :: 'x' :: h64))).drop 10 =
          body ++ ((s0 :: srest) ++ '0' :: 'x' :: h64) := by
        have h10 : pkTok.length = 10 := rfl
        rw [← h10, List.drop_left]
      rw [hd, twAppAll isAlnumAscii body _ hbal, List.cons_append,
        twHeadNeg isAlnumAscii s0 _ (wsNotAlnum hs0), List.append_nil]
      rw [if_neg (by
        cases hb : body with
        | nil => exact absurd hb hbne
        | cons a as => simp [hb])]
    have hsan : sanitize_output
        ⟨(pkTok ++ body) ++ ((s0 :: srest) ++ '0' :: 'x' :: h64)⟩ =
        ⟨(maskTok ++ s0 :: srest) ++ maskRep h64⟩ := by
      unfold sanitize_output
      have hdata : (⟨(pkTok ++ body) ++ ((s0 :: srest) ++ '0' :: 'x' :: h64)⟩ :
          String).data =
          (pkTok ++ body) ++ ((s0 :: srest) ++ '0' :: 'x' :: h64) := rfl
      rw [hdata, wipe1_match hm1]
      have hd2 : ((pkTok ++ body) ++ ((s0 :: srest) ++ '0' :: 'x' :: h64)).drop
          (10 + body.length) = (s0 :: srest) ++ '0' :: 'x' :: h64 := by
        have hl : (pkTok ++ body).length = 10 + body.length := by
          simp [pkTok]
          omega
        rw [← hl, List.drop_left]
      rw [hd2]
      have hid : wipe1 ((s0 :: srest) ++ '0' :: 'x' :: h64) =
          (s0 :: srest) ++ '0' :: 'x' :: h64 := by
        apply wipe1_id
        apply hasPk_of_noS
        intro c hc
        rcases List.mem_cons.mp hc with rfl | hc2
        · exact wsNotS hs0
        · rcases List.mem_append.mp hc2 with hc3 | hc4
          · exact wsNotS (hsrest c hc3)
          · rcases List.mem_cons.mp hc4 with rfl | hc5
            · decide
            · rcases List.mem_cons.mp hc5 with rfl | hc6
              · decide
              · exact hexNotS (hhex c hc6)
      rw [hid]
      have hw2 : wipe2 (maskTok ++ ((s0 :: srest) ++ '0' :: 'x' :: h64)) =
          (maskTok ++ s0 :: srest) ++ maskRep h64 := by
        rw [← List.append_assoc]
        rw [wipe2_pre_ne0 (maskTok ++ s0 :: srest) _ (by
          intro c hc
          rcases List.mem_append.mp hc with hc1 | hc2
          · fin_cases hc1 <;> decide
          · rcases List.mem_cons.mp hc2 with rfl | hc3
            · exact wsNot0 hs0
            · exact wsNot0 (hsrest c hc3))]
        rw [wipe2_0x h64 hlen hhex]
      rw [hw2]
      have hno : noM3 false ((maskTok ++ s0 :: srest) ++ maskRep h64) := by
        have hshape : (maskTok ++ s0 :: srest) ++ maskRep h64 =
            '*' :: '*' :: '*' :: '*' :: ((s0 :: srest) ++ maskRep h64) := rfl
        rw [hshape]
        apply noM3_cons_intro (m3At_notlower (by decide) _)
        apply noM3_cons_intro (m3At_notlower (by decide) _)
        apply noM3_cons_intro (m3At_notlower (by decide) _)
        apply noM3_cons_intro (m3At_notlower (by decide) _)
        exact noM3_ws_pre (s0 :: srest) (maskRep h64)
          (by
            intro c hc
            rcases List.mem_cons.mp hc with rfl | hc2
            · exact hs0
            · exact hsrest c hc2)
          (fun pw => noM3_nows (maskRep h64) (maskRep_ws0 h64 hhex) pw)
          (isWordCh '*')
      rw [show wipe3 ((maskTok ++ s0 :: srest) ++ maskRep h64) =
          wipe3C false ((maskTok ++ s0 :: srest) ++ maskRep h64) from rfl]
      rw [wipe3C_of_noM3 hno]
    simp only [execute_sui_command]
    rw [hsan]

/-- C2 amended witness: a concrete token, a tab-and-newline separator, and
an address. -/
theorem exec_token_then_address_masked_witness :
    execute_sui_command ["keytool", "export"]
        (Except.ok ⟨⟨pkTok ++ ['1', 'a'] ++ (['\t', '\n'] ++ '0' :: 'x' ::
            List.replicate 64 'b')⟩, "", some 0⟩)
        initAppState 2 =
      Except.ok
        ({ stdout := ⟨maskTok ++ ['\t', '\n'] ++ maskRep (List.replicate 64 'b')⟩
           stderr := sanitize_output ""
           exit_code := 0
           duration_ms := 2 },
         { initAppState with last_command := "keytool export" }) := by
  have h := exec_token_then_address_masked ['1', 'a'] ['\t', '\n']
    (List.replicate 64 'b') ["keytool", "export"] initAppState 2 "" (some 0)
    (by decide) (by decide) (by decide) (by decide) (by decide) (by decide)
  rw [h]
  rfl
